import Mathlib

/-!
Verification of the oxidant repository: a shallow embedding of the bencode
decoder in `src/bencode/mod.rs` and of the command module in `src/lib.rs`,
together with theorems settling the specification claims.

Modelling conventions:
* The Rust peekable character iterator becomes explicit state passing over
  `List Char`; each rule returns its outcome together with the remaining input.
* Rust `Result<T, String>` becomes the `PResult` type below; a Rust panic
  (for example `Option::unwrap` on `None`) is modelled by the distinguished
  outcome `PResult.panic`.
* `std::collections::BTreeMap<String, BCObject>` is modelled by an
  association list kept sorted by key; `btree_insert` performs the ordered
  insert-or-replace that `BTreeMap::insert` performs.
* Machine integers (`i64`) are modelled as `Int` with the explicit bounds
  `i64_min` and `i64_max`; `str::parse::<i64>` is modelled by `parse_i64`,
  reproducing the error descriptions of the Rust standard library.
* The byte-slice comparisons `&i[0..2] == "-0"` and `&i[0..1] == "0"` in
  `parse_integer` are modelled at the character level (`List.take`), which
  agrees with the byte-level code on ASCII characters; every input in the
  claims is ASCII.
-/

namespace Oxidant

/-- The decoded value tree, from the Rust enum `BCObject`
(src/bencode/mod.rs lines 8-14): a string, a 64-bit signed integer, a list,
or a dictionary backed by a `BTreeMap<String, BCObject>` (modelled as a
key-sorted association list). -/
inductive BCObject where
  | String : String → BCObject
  | Integer : Int → BCObject
  | List : List BCObject → BCObject
  | Dictionary : List (String × BCObject) → BCObject
deriving Inhabited

/-- Outcome of a parsing function: Rust `Ok`, Rust `Err` carrying the error
message, or a Rust panic (for example `unwrap` of `None`). -/
inductive PResult where
  | ok : BCObject → PResult
  | err : String → PResult
  | panic : PResult
deriving Inhabited

/-- Lookup in the association-list model of `BTreeMap`, used by the embedded
`PartialEq` implementation (`m2.contains_key(k)` and `m2[k]`). -/
def assoc_get (m : List (String × BCObject)) (k : String) : Option BCObject :=
  match m with
  | [] => none
  | (k₁, v) :: rest => if k₁ == k then some v else assoc_get rest k

/-- Model of `BTreeMap::insert`: insert-or-replace keeping the association
list sorted by key, so that iteration order is the key order exactly as for
the Rust `BTreeMap`. -/
def btree_insert (m : List (String × BCObject)) (k : String) (v : BCObject) :
    List (String × BCObject) :=
  match m with
  | [] => [(k, v)]
  | (k₁, v₁) :: rest =>
    if k < k₁ then (k, v) :: (k₁, v₁) :: rest
    else if k = k₁ then (k, v) :: rest
    else (k₁, v₁) :: btree_insert rest k v

mutual

/-- Embedding of `impl PartialEq for BCObject` (src/bencode/mod.rs lines
16-50): equality is exact for `String` and `Integer`, a length check followed
by an index-by-index comparison for `List`, a length check followed by a
lookup of every key of the left map in the right map for `Dictionary`, and
`false` for different variants. -/
def bc_eq (a b : BCObject) : Bool :=
  match a, b with
  | .String x, .String y => x == y
  | .Integer x, .Integer y => x == y
  | .List v₁, .List v₂ => if v₁.length = v₂.length then bc_eq_list v₁ v₂ else false
  | .Dictionary m₁, .Dictionary m₂ =>
    if m₁.length = m₂.length then bc_eq_dict m₁ m₂ else false
  | _, _ => false

/-- The index loop of the `List` case of `PartialEq` (lines 21-33); it is
only invoked on lists of equal length, so the mixed-length cases below are
never reached. -/
def bc_eq_list (v₁ v₂ : List BCObject) : Bool :=
  match v₁, v₂ with
  | [], _ => true
  | _ :: _, [] => true
  | x :: xs, y :: ys => bc_eq x y && bc_eq_list xs ys

/-- The key loop of the `Dictionary` case of `PartialEq` (lines 34-46):
for every key of the left map, the right map must contain the key and map it
to an equal value. -/
def bc_eq_dict (m₁ m₂ : List (String × BCObject)) : Bool :=
  match m₁ with
  | [] => true
  | (k, v) :: rest =>
    (match assoc_get m₂ k with
     | some v₂ => bc_eq v v₂
     | none => false) && bc_eq_dict rest m₂

end

/-- Smallest `i64` value, `-(2^63)`. -/
def i64_min : Int := -9223372036854775808

/-- Largest `i64` value, `2^63 - 1`. -/
def i64_max : Int := 9223372036854775807

/-- Digit-accumulation loop of `str::parse::<i64>` on a digit-only character
list (most significant digit first). -/
def digits_val (s : List Char) : Nat :=
  s.foldl (fun a c => 10 * a + (c.toNat - 48)) 0

/-- Model of `str::parse::<i64>` after the optional sign has been stripped:
at least one character is required, every character must be a decimal digit,
and the signed value must fit in `i64`.  The error strings are the
`description()` texts of `std::num::ParseIntError`. -/
def parse_i64_digits (sign : Int) (s : List Char) : Except String Int :=
  if s.all (fun c => c.isDigit) then
    let v : Int := sign * (digits_val s : Nat)
    if v < i64_min then .error "number too small to fit in target type"
    else if i64_max < v then .error "number too large to fit in target type"
    else .ok v
  else .error "invalid digit found in string"

/-- Model of `str::parse::<i64>` (used at src/bencode/mod.rs lines 181 and
213): an empty string is rejected, one leading `+` or `-` sign is allowed
but must be followed by at least one character, and the remaining characters
go through `parse_i64_digits`. -/
def parse_i64 (s : List Char) : Except String Int :=
  match s with
  | [] => .error "cannot parse integer from empty string"
  | c :: rest =>
    if c = '+' ∨ c = '-' then
      if rest = [] then .error "invalid digit found in string"
      else parse_i64_digits (if c = '-' then -1 else 1) rest
    else parse_i64_digits 1 (c :: rest)

/-- The counted read loop `for x in 0..i` of `parse_string`
(src/bencode/mod.rs lines 223-236), with `n` the number of characters still
owed (`i - x`, which is also the count reported in the premature-end
message).  The loop body moves one character from the input to `buff`;
when the input runs dry first, the rule fails. -/
def read_chars (n : Nat) (buff l : List Char) : PResult × List Char :=
  match n, l with
  | 0, l => (.ok (.String (String.mk buff)), l)
  | _ + 1, [] =>
    (.err ("premature end of string after len - " ++ toString n ++
      " chars remaining"), [])
  | m + 1, c :: rest => read_chars m (buff ++ [c]) rest

/-- Embedding of `BCObject::parse_string` (src/bencode/mod.rs lines
195-243): accumulate the length prefix up to `:` (failing if the input runs
out first), parse it as a signed 64-bit integer (failing with the
`ParseIntError` description if that fails, without consuming the `:`), then
consume the `:` and run the counted read loop.  A negative parsed length
makes the loop bound `i.toNat` zero, exactly as the Rust range `0..i` is
empty for negative `i`. -/
def parse_string (l : List Char) : PResult × List Char :=
  let len := l.takeWhile (fun c => c != ':')
  match l.dropWhile (fun c => c != ':') with
  | [] => (.err "premature end of string", [])
  | d :: rest =>
    match parse_i64 len with
    | .ok i => read_chars i.toNat [] rest
    | .error e => (.err e, d :: rest)

/-- Embedding of `BCObject::parse_integer` (src/bencode/mod.rs lines
142-193): consume the leading character, which must be `i`; accumulate the
body up to `e` (failing if the input runs out first); reject a body starting
with `-0`; reject a body longer than one character starting with `0`;
consume the `e`; and parse the body as a signed 64-bit integer. -/
def parse_integer (l : List Char) : PResult × List Char :=
  match l with
  | 'i' :: t =>
    let body := t.takeWhile (fun c => c != 'e')
    match t.dropWhile (fun c => c != 'e') with
    | [] => (.err "premature end of integer string", [])
    | d :: after =>
      if 2 ≤ body.length ∧ body.take 2 = ['-', '0'] then
        (.err "integer cannot start with or consist of -0", d :: after)
      else if 1 < body.length ∧ body.take 1 = ['0'] then
        (.err "integer cannot start with leading 0", d :: after)
      else
        match parse_i64 body with
        | .ok n => (.ok (.Integer n), after)
        | .error e => (.err e, after)
  | _ :: t => (.err "tried to parse an integer - not an integer", t)
  | [] => (.err "tried to parse an integer - not an integer", [])

theorem length_dropWhile_le (p : Char → Bool) (l : List Char) :
    (l.dropWhile p).length ≤ l.length := by
  induction l with
  | nil => simp
  | cons c t ih =>
    by_cases h : p c <;> simp [List.dropWhile_cons, h] <;> omega

theorem dropWhile_head_false {p : Char → Bool} {l rest : List Char} {c : Char}
    (h : l.dropWhile p = c :: rest) : p c = false := by
  induction l with
  | nil => simp at h
  | cons a t ih =>
    rw [List.dropWhile_cons] at h
    by_cases hp : p a
    · rw [if_pos hp] at h; exact ih h
    · rw [if_neg hp] at h
      cases h
      exact Bool.eq_false_iff.mpr hp

theorem read_chars_le (n : Nat) (buff l : List Char) :
    (read_chars n buff l).2.length ≤ l.length := by
  induction n generalizing buff l with
  | zero => simp [read_chars]
  | succ m ih =>
    cases l with
    | nil => simp [read_chars]
    | cons c rest => simpa [read_chars] using le_trans (ih _ rest) (Nat.le_succ _)

theorem parse_string_le (l : List Char) : (parse_string l).2.length ≤ l.length := by
  unfold parse_string
  split
  · simp
  · next d rest hd =>
    have hdl : (d :: rest).length ≤ l.length := by
      rw [← hd]; exact length_dropWhile_le _ l
    dsimp only
    split
    · exact le_trans (le_trans (read_chars_le _ _ _) (Nat.le_succ _)) hdl
    · exact hdl

theorem parse_string_lt (l : List Char) (v : BCObject)
    (h : (parse_string l).1 = .ok v) : (parse_string l).2.length < l.length := by
  revert h
  unfold parse_string
  split
  · intro h; exact absurd h (by simp)
  · next d rest hd =>
    have hdl : (d :: rest).length ≤ l.length := by
      rw [← hd]; exact length_dropWhile_le _ l
    dsimp only
    split
    · intro _
      exact Nat.lt_of_lt_of_le (Nat.lt_succ_of_le (read_chars_le _ _ _)) hdl
    · intro h; exact absurd h (by simp)

theorem parse_integer_le (l : List Char) : (parse_integer l).2.length ≤ l.length := by
  unfold parse_integer
  split
  · next t =>
    split
    · simp
    · next d after hd =>
      have hdl : (d :: after).length ≤ t.length := by
        rw [← hd]; exact length_dropWhile_le _ t
      have ht : t.length ≤ ('i' :: t).length := Nat.le_succ _
      dsimp only
      split
      · exact le_trans hdl ht
      · split
        · exact le_trans hdl ht
        · split <;> simp_all <;> omega
  · next c t h1 => exact Nat.le_succ _
  · simp

theorem parse_integer_lt (l : List Char) (v : BCObject)
    (h : (parse_integer l).1 = .ok v) : (parse_integer l).2.length < l.length := by
  revert h
  unfold parse_integer
  split
  · next t =>
    split
    · intro h; exact absurd h (by simp)
    · next d after hd =>
      have hdl : (d :: after).length ≤ t.length := by
        rw [← hd]; exact length_dropWhile_le _ t
      have ht : t.length < ('i' :: t).length := Nat.lt_succ_of_le (Nat.le_refl _)
      dsimp only
      split
      · intro h; exact absurd h (by simp)
      · split
        · intro h; exact absurd h (by simp)
        · split <;> intro h <;> simp_all <;> omega
  · next c t h1 => intro h; exact absurd h (by simp)
  · intro h; exact absurd h (by simp)

/-- Result of a parsing rule on an input of length `n`: the outcome, the
remaining input, the fact that the remaining input is no longer than the
given one, and the fact that a successful rule consumes at least one
character.  The two facts justify termination of the mutually recursive
rules; the `res` and `rest` fields are the translation of the Rust return
value and iterator state. -/
structure PRes (n : Nat) where
  res : PResult
  rest : List Char
  hle : rest.length ≤ n
  hok : ∀ v, res = PResult.ok v → rest.length < n

mutual

/-- Embedding of `BCObject::parse` (src/bencode/mod.rs lines 245-254): peek
one character and dispatch on it.  The Rust code calls
`iter.peek().unwrap()`, which panics when the input is empty; the peeked
character is not consumed, and an unrecognized character produces the
`not implemented` error without consuming anything. -/
def parse (l : List Char) : PRes l.length :=
  match l with
  | [] => ⟨.panic, [], Nat.le_refl 0, fun _ h => nomatch h⟩
  | c :: t =>
    if c = 'i' then
      ⟨(parse_integer (c :: t)).1, (parse_integer (c :: t)).2,
        parse_integer_le (c :: t), fun v h => parse_integer_lt (c :: t) v h⟩
    else if c = 'd' then parse_dictionary (c :: t)
    else if c = 'l' then parse_list (c :: t)
    else if '0' ≤ c ∧ c ≤ '9' then
      ⟨(parse_string (c :: t)).1, (parse_string (c :: t)).2,
        parse_string_le (c :: t), fun v h => parse_string_lt (c :: t) v h⟩
    else
      ⟨.err ("not implemented: " ++ toString c), c :: t, Nat.le_refl _,
        fun _ h => nomatch h⟩
termination_by (l.length, 1)

/-- Embedding of `BCObject::parse_list` (src/bencode/mod.rs lines 110-140):
consume the leading character, which must be `l`, then run the item loop. -/
def parse_list (l : List Char) : PRes l.length :=
  match l with
  | 'l' :: rest =>
    let r := parse_list_loop rest []
    ⟨r.res, r.rest, le_trans r.hle (Nat.le_succ _), fun _ _ => Nat.lt_succ_of_le r.hle⟩
  | _ :: rest =>
    ⟨.err "tried to parse a list - not a list", rest, Nat.le_succ _, fun _ h => nomatch h⟩
  | [] =>
    ⟨.err "tried to parse a list - not a list", [], Nat.le_refl 0, fun _ h => nomatch h⟩
termination_by (l.length, 0)

/-- The item loop of `parse_list` (src/bencode/mod.rs lines 121-135): while
the input is non-empty and does not start with `e`, parse one item with the
general dispatcher and push it; the Rust code unwraps the item result, so an
item error is a panic.  An exhausted input is the premature-end error; an
`e` is consumed and the accumulated list is returned. -/
def parse_list_loop (l : List Char) (v : List BCObject) : PRes l.length :=
  match l with
  | [] =>
    ⟨.err "premature end of list string", [], Nat.le_refl 0, fun _ h => nomatch h⟩
  | c :: rest =>
    if c = 'e' then
      ⟨.ok (.List v), rest, Nat.le_succ _, fun _ _ => Nat.lt_succ_of_le (Nat.le_refl _)⟩
    else
      match parse (c :: rest) with
      | ⟨.ok x, rrest, _, hok₁⟩ =>
        let r₂ := parse_list_loop rrest (v ++ [x])
        ⟨r₂.res, r₂.rest, le_trans r₂.hle (Nat.le_of_lt (hok₁ x rfl)),
          fun _ _ => Nat.lt_of_le_of_lt r₂.hle (hok₁ x rfl)⟩
      | ⟨.err _, rrest, hle₁, _⟩ => ⟨.panic, rrest, hle₁, fun _ h => nomatch h⟩
      | ⟨.panic, rrest, hle₁, _⟩ => ⟨.panic, rrest, hle₁, fun _ h => nomatch h⟩
termination_by (l.length, 2)
decreasing_by
· simp_wf
  rw [Prod.lex_def]
  simp only [List.length_cons]
  simp
· have hlt := hok₁ x rfl
  simp_wf
  rw [Prod.lex_def]
  simp only [List.length_cons] at hlt ⊢
  first
  | omega
  | (simp; omega)

/-- Embedding of `BCObject::parse_dictionary` (src/bencode/mod.rs lines
55-108): consume the leading character, which must be `d`, then run the
key-value loop. -/
def parse_dictionary (l : List Char) : PRes l.length :=
  match l with
  | 'd' :: rest =>
    let r := parse_dictionary_loop rest []
    ⟨r.res, r.rest, le_trans r.hle (Nat.le_succ _), fun _ _ => Nat.lt_succ_of_le r.hle⟩
  | _ :: rest =>
    ⟨.err "tried to parse a dictionary - not a dictionary", rest, Nat.le_succ _,
      fun _ h => nomatch h⟩
  | [] =>
    ⟨.err "tried to parse a dictionary - not a dictionary", [], Nat.le_refl 0,
      fun _ h => nomatch h⟩
termination_by (l.length, 0)

/-- The key-value loop of `parse_dictionary` (src/bencode/mod.rs lines
65-103): while the input is non-empty and does not start with `e`, parse a
key with `parse_string` specifically (an error is returned as is; a
non-string success, which cannot actually happen, would be the
`key was not a string type` error), then parse the value with the general
dispatcher (an error is returned as is), and insert the pair into the map,
a later duplicate key overwriting an earlier one. -/
def parse_dictionary_loop (l : List Char) (m : List (String × BCObject)) :
    PRes l.length :=
  match l with
  | [] =>
    ⟨.err "premature end of dictionary string", [], Nat.le_refl 0, fun _ h => nomatch h⟩
  | c :: rest =>
    if c = 'e' then
      ⟨.ok (.Dictionary m), rest, Nat.le_succ _, fun _ _ => Nat.lt_succ_of_le (Nat.le_refl _)⟩
    else
      match hk : parse_string (c :: rest) with
      | (.ok (.String s), krest) =>
        match parse krest with
        | ⟨.ok x, vrest, hle₁, hok₁⟩ =>
          let r₂ := parse_dictionary_loop vrest (btree_insert m s x)
          ⟨r₂.res, r₂.rest,
            by
              have hkle : krest.length ≤ (c :: rest).length := by
                have := parse_string_le (c :: rest); rw [hk] at this; exact this
              exact le_trans r₂.hle (Nat.le_of_lt (Nat.lt_of_lt_of_le (hok₁ x rfl) hkle)),
            by
              intro _ _
              have hkle : krest.length ≤ (c :: rest).length := by
                have := parse_string_le (c :: rest); rw [hk] at this; exact this
              exact Nat.lt_of_le_of_lt r₂.hle (Nat.lt_of_lt_of_le (hok₁ x rfl) hkle)⟩
        | ⟨.err e, vrest, hle₁, _⟩ =>
          ⟨.err e, vrest,
            by
              have hkle : krest.length ≤ (c :: rest).length := by
                have := parse_string_le (c :: rest); rw [hk] at this; exact this
              exact le_trans hle₁ hkle,
            fun _ h => nomatch h⟩
        | ⟨.panic, vrest, hle₁, _⟩ =>
          ⟨.panic, vrest,
            by
              have hkle : krest.length ≤ (c :: rest).length := by
                have := parse_string_le (c :: rest); rw [hk] at this; exact this
              exact le_trans hle₁ hkle,
            fun _ h => nomatch h⟩
      | (.ok (.Integer n), krest) =>
        ⟨.err "key was not a string type - abort", krest,
          by have := parse_string_le (c :: rest); rw [hk] at this; exact this,
          fun _ h => nomatch h⟩
      | (.ok (.List lv), krest) =>
        ⟨.err "key was not a string type - abort", krest,
          by have := parse_string_le (c :: rest); rw [hk] at this; exact this,
          fun _ h => nomatch h⟩
      | (.ok (.Dictionary dv), krest) =>
        ⟨.err "key was not a string type - abort", krest,
          by have := parse_string_le (c :: rest); rw [hk] at this; exact this,
          fun _ h => nomatch h⟩
      | (.err e, krest) =>
        ⟨.err e, krest,
          by have := parse_string_le (c :: rest); rw [hk] at this; exact this,
          fun _ h => nomatch h⟩
      | (.panic, krest) =>
        ⟨.panic, krest,
          by have := parse_string_le (c :: rest); rw [hk] at this; exact this,
          fun _ h => nomatch h⟩
termination_by (l.length, 2)
decreasing_by
· have hkle : krest.length ≤ (c :: rest).length := by
    have h₁ := parse_string_le (c :: rest); rw [hk] at h₁; exact h₁
  simp_wf
  rw [Prod.lex_def]
  simp only [List.length_cons] at hkle ⊢
  first
  | omega
  | (simp; omega)
· have hkle : krest.length ≤ (c :: rest).length := by
    have h₁ := parse_string_le (c :: rest); rw [hk] at h₁; exact h₁
  have hlt := hok₁ x rfl
  simp_wf
  rw [Prod.lex_def]
  simp only [List.length_cons] at hkle hlt ⊢
  first
  | omega
  | (simp; omega)

end

/-- Embedding of `BCObject::parse_blob` (src/bencode/mod.rs lines 256-258):
run the dispatcher over a fresh character iterator for the blob and return
the outcome. -/
def parse_blob (s : String) : PResult := (parse s.data).res

theorem takeWhile_middle {p : Char → Bool} {l₁ : List Char} {x : Char}
    (h : ∀ c ∈ l₁, p c = true) (hx : p x = false) (l₂ : List Char) :
    (l₁ ++ x :: l₂).takeWhile p = l₁ := by
  induction l₁ with
  | nil => simp [List.takeWhile_cons, hx]
  | cons a t ih =>
    rw [List.cons_append,
      List.takeWhile_cons_of_pos (h a (List.mem_cons_self a t)),
      ih fun c hc => h c (List.mem_cons_of_mem a hc)]

theorem dropWhile_middle {p : Char → Bool} {l₁ : List Char} {x : Char}
    (h : ∀ c ∈ l₁, p c = true) (hx : p x = false) (l₂ : List Char) :
    (l₁ ++ x :: l₂).dropWhile p = x :: l₂ := by
  induction l₁ with
  | nil => simp [List.dropWhile_cons, hx]
  | cons a t ih =>
    rw [List.cons_append,
      List.dropWhile_cons_of_pos (h a (List.mem_cons_self a t))]
    exact ih fun c hc => h c (List.mem_cons_of_mem a hc)

theorem read_chars_all (content : List Char) (tail buff : List Char) :
    read_chars content.length buff (content ++ tail) =
      (.ok (.String (String.mk (buff ++ content))), tail) := by
  induction content generalizing buff with
  | nil => simp [read_chars]
  | cons c cs ih =>
    show read_chars (cs.length + 1) buff (c :: (cs ++ tail)) = _
    rw [read_chars, ih (buff ++ [c])]
    simp

/-- Success case of the string rule: a colon-free length prefix that parses
to the integer `i`, followed by a colon and at least `i.toNat` characters,
yields exactly those characters and leaves the rest of the input. -/
theorem parse_string_spec (lp content tail : List Char) (i : Int)
    (hlp : ∀ c ∈ lp, (c != ':') = true)
    (hi : parse_i64 lp = .ok i)
    (hlen : i.toNat = content.length) :
    parse_string (lp ++ ':' :: (content ++ tail)) =
      (.ok (.String (String.mk content)), tail) := by
  unfold parse_string
  rw [takeWhile_middle hlp (by decide) (content ++ tail),
    dropWhile_middle hlp (by decide) (content ++ tail)]
  dsimp only
  rw [hi]
  dsimp only
  rw [hlen]
  exact read_chars_all content tail []

/-- Claim C3: the string rule does not reject a negative length prefix.
Whenever the length prefix parses as a negative integer, the counted read
loop runs zero times, so the rule consumes nothing beyond the colon and
silently yields the empty string instead of an error. -/
theorem c3_negative_length_yields_empty_string (lp rest : List Char) (i : Int)
    (hlp : ∀ c ∈ lp, (c != ':') = true)
    (hi : parse_i64 lp = .ok i) (hneg : i < 0) :
    parse_string (lp ++ ':' :: rest) = (.ok (.String ""), rest) := by
  have h0 : i.toNat = ([] : List Char).length := by simp; omega
  exact parse_string_spec lp [] rest i hlp hi h0

/-- Witness for C3 at the concrete input `-1:` of the claim. -/
theorem c3_witness :
    parse_string ['-', '1', ':'] = (.ok (.String ""), []) :=
  c3_negative_length_yields_empty_string ['-', '1'] [] (-1) (by decide)
    (by rfl) (by decide)

/-- Decimal digit character, offset 48 in the character table. -/
def digit_char (d : Nat) : Char := Char.ofNat (48 + d)

/-- Canonical decimal notation of a natural number, most significant digit
first; this is the textual form the claims feed to the decoder. -/
def nat_decimal (k : Nat) : List Char :=
  if k = 0 then ['0'] else (Nat.digits 10 k).reverse.map digit_char

theorem digit_char_isDigit {d : Nat} (hd : d < 10) : (digit_char d).isDigit = true := by
  interval_cases d <;> decide

theorem digit_char_ne_zero {d : Nat} (hd : d < 10) (h0 : d ≠ 0) :
    digit_char d ≠ '0' := by
  interval_cases d <;> first | exact absurd rfl h0 | decide

theorem nat_decimal_digits (k : Nat) : ∀ c ∈ nat_decimal k, c.isDigit = true := by
  intro c hc
  unfold nat_decimal at hc
  split at hc
  · simp at hc; subst hc; decide
  · simp only [List.mem_map, List.mem_reverse] at hc
    obtain ⟨d, hd, rfl⟩ := hc
    exact digit_char_isDigit (Nat.digits_lt_base (by norm_num) hd)

theorem nat_decimal_ne_nil (k : Nat) : nat_decimal k ≠ [] := by
  unfold nat_decimal
  split
  · simp
  · next h =>
    simp only [ne_eq, List.map_eq_nil_iff, List.reverse_eq_nil_iff]
    exact Nat.digits_ne_nil_iff_ne_zero.mpr h

theorem digits_val_map_aux (L : List Nat) (a : Nat) (h : ∀ d ∈ L, d < 10) :
    List.foldl (fun acc c => 10 * acc + (c.toNat - 48)) a (L.map digit_char) =
      List.foldl (fun acc d => 10 * acc + d) a L := by
  induction L generalizing a with
  | nil => simp
  | cons d ds ih =>
    have hd : d < 10 := h d (by simp)
    have hchar : (digit_char d).toNat = 48 + d := by interval_cases d <;> decide
    simp only [List.map_cons, List.foldl_cons, hchar]
    rw [show 48 + d - 48 = d by omega]
    exact ih _ (fun x hx => h x (by simp [hx]))

theorem foldr_eq_ofDigits (L : List Nat) :
    L.foldr (fun d a => 10 * a + d) 0 = Nat.ofDigits 10 L := by
  induction L with
  | nil => simp [Nat.ofDigits]
  | cons d ds ih =>
    simp only [List.foldr_cons, ih, Nat.ofDigits_cons]
    push_cast
    ring

theorem digits_val_nat_decimal (k : Nat) : digits_val (nat_decimal k) = k := by
  unfold nat_decimal digits_val
  split
  · next h => subst h; decide
  · rw [digits_val_map_aux _ _ (fun d hd =>
      Nat.digits_lt_base (by norm_num) (List.mem_reverse.mp hd))]
    rw [List.foldl_reverse]
    have := foldr_eq_ofDigits (Nat.digits 10 k)
    rw [this, Nat.ofDigits_digits]

theorem parse_i64_nat_decimal (k : Nat) (hk : (k : Int) ≤ i64_max) :
    parse_i64 (nat_decimal k) = .ok k := by
  rcases hnd : nat_decimal k with _ | ⟨c, rest⟩
  · exact absurd hnd (nat_decimal_ne_nil k)
  · have hc : c.isDigit = true := nat_decimal_digits k c (by rw [hnd]; simp)
    have hsign : ¬ (c = '+' ∨ c = '-') := by
      simp [Char.isDigit] at hc
      rintro (rfl | rfl) <;> simp_all
    have hall : (c :: rest).all (fun c => c.isDigit) = true := by
      rw [← hnd]
      simp only [List.all_eq_true]
      exact nat_decimal_digits k
    have hval : digits_val (c :: rest) = k := by
      rw [← hnd]; exact digits_val_nat_decimal k
    rw [parse_i64, if_neg hsign]
    unfold parse_i64_digits
    rw [if_pos hall]
    dsimp only
    rw [hval]
    rw [if_neg (by unfold i64_min; omega)]
    rw [if_neg (by unfold i64_max at hk ⊢; omega)]
    simp

/-- On an input starting with a decimal digit the dispatcher goes to the
string rule (the digit is none of `i`, `d`, `l`). -/
theorem parse_digit (c : Char) (t : List Char) (hc : c.isDigit = true) :
    (parse (c :: t)).res = (parse_string (c :: t)).1 ∧
    (parse (c :: t)).rest = (parse_string (c :: t)).2 := by
  have h0 : ¬ c = 'i' := by simp [Char.isDigit] at hc; rintro rfl; simp_all
  have h1 : ¬ c = 'd' := by simp [Char.isDigit] at hc; rintro rfl; simp_all
  have h2 : ¬ c = 'l' := by simp [Char.isDigit] at hc; rintro rfl; simp_all
  have h3 : '0' ≤ c ∧ c ≤ '9' := by
    simp [Char.isDigit] at hc
    exact ⟨hc.1, hc.2⟩
  rw [parse]
  rw [if_neg h0, if_neg h1, if_neg h2, if_pos h3]
  exact ⟨rfl, rfl⟩

/-- Claim C5: the string rule round trip.  For every count `k` (within the
range the signed 64-bit length parse accepts, which covers every physically
possible input length) and every character sequence `s` of length `k`,
decoding `decimal(k) + colon + s` yields exactly `Text(s)` and consumes the
whole input. -/
theorem c5_string_roundtrip (k : Nat) (s : List Char)
    (hk : (k : Int) ≤ i64_max) (hlen : s.length = k) :
    (parse (nat_decimal k ++ ':' :: s)).res = .ok (.String (String.mk s)) ∧
    (parse (nat_decimal k ++ ':' :: s)).rest = [] := by
  have hps : parse_string (nat_decimal k ++ ':' :: s) =
      (.ok (.String (String.mk s)), []) := by
    have := parse_string_spec (nat_decimal k) s [] (k : Int)
      (fun c hc => by
        have := nat_decimal_digits k c hc
        simp [Char.isDigit] at this
        simp [bne]
        rintro rfl
        simp_all)
      (parse_i64_nat_decimal k hk)
      (by simp [hlen])
    simpa using this
  rcases hnd : nat_decimal k with _ | ⟨c, rest⟩
  · exact absurd hnd (nat_decimal_ne_nil k)
  · have hc : c.isDigit = true := nat_decimal_digits k c (by rw [hnd]; simp)
    rw [hnd] at hps
    simp only [List.cons_append] at hps ⊢
    have hd := parse_digit c (rest ++ ':' :: s) hc
    rw [hd.1, hd.2, hps]
    exact ⟨rfl, rfl⟩

/-- Witness for C5 at `3:abc`. -/
theorem c5_witness :
    (parse (nat_decimal 3 ++ ':' :: ['a', 'b', 'c'])).res =
      .ok (.String (String.mk ['a', 'b', 'c'])) ∧
    (parse (nat_decimal 3 ++ ':' :: ['a', 'b', 'c'])).rest = [] :=
  c5_string_roundtrip 3 ['a', 'b', 'c'] (by decide) (by decide)

theorem dict_loop_e (rest : List Char) (m : List (String × BCObject)) :
    (parse_dictionary_loop ('e' :: rest) m).res = .ok (.Dictionary m) ∧
    (parse_dictionary_loop ('e' :: rest) m).rest = rest := by
  rw [parse_dictionary_loop]
  simp

theorem dict_loop_cons_ok {c : Char} (hc : ¬ c = 'e') {rest krest vrest : List Char}
    {s : String} {x : BCObject} (m : List (String × BCObject))
    (hk : parse_string (c :: rest) = (.ok (.String s), krest))
    (hv1 : (parse krest).res = .ok x) (hv2 : (parse krest).rest = vrest) :
    (parse_dictionary_loop (c :: rest) m).res =
      (parse_dictionary_loop vrest (btree_insert m s x)).res ∧
    (parse_dictionary_loop (c :: rest) m).rest =
      (parse_dictionary_loop vrest (btree_insert m s x)).rest := by
  rw [parse_dictionary_loop]
  rw [if_neg hc]
  split
  · rename_i s' krest' heq
    rw [hk] at heq
    injection heq with h1 h2
    injection h1 with h1
    injection h1 with h1
    subst h1
    subst h2
    split
    · rename_i x' vrest' hle' hok' heq2
      have hres := congrArg PRes.res heq2
      have hrest := congrArg PRes.rest heq2
      rw [hv1] at hres
      rw [hv2] at hrest
      dsimp only at hres hrest
      injection hres with hres
      subst hres
      subst hrest
      exact ⟨rfl, rfl⟩
    · rename_i e' vrest' hle' hok' heq2
      have hres := congrArg PRes.res heq2
      rw [hv1] at hres
      dsimp only at hres
      exact absurd hres (by simp)
    · rename_i vrest' hle' hok' heq2
      have hres := congrArg PRes.res heq2
      rw [hv1] at hres
      dsimp only at hres
      exact absurd hres (by simp)
  · rename_i n' krest' heq
    rw [hk] at heq
    injection heq with h1 h2
    injection h1 with h1
    exact absurd h1 (by simp)
  · rename_i lv' krest' heq
    rw [hk] at heq
    injection heq with h1 h2
    injection h1 with h1
    exact absurd h1 (by simp)
  · rename_i dv' krest' heq
    rw [hk] at heq
    injection heq with h1 h2
    injection h1 with h1
    exact absurd h1 (by simp)
  · rename_i e' krest' heq
    rw [hk] at heq
    injection heq with h1 h2
    exact absurd h1 (by simp)
  · rename_i krest' heq
    rw [hk] at heq
    injection heq with h1 h2
    exact absurd h1 (by simp)

theorem dict_loop_nil (m : List (String × BCObject)) :
    (parse_dictionary_loop [] m).res = .err "premature end of dictionary string" ∧
    (parse_dictionary_loop [] m).rest = [] := by
  rw [parse_dictionary_loop]
  exact ⟨rfl, rfl⟩

theorem dict_loop_cons_keyerr {c : Char} (hc : ¬ c = 'e') {rest krest : List Char}
    {e : String} (m : List (String × BCObject))
    (hk : parse_string (c :: rest) = (.err e, krest)) :
    (parse_dictionary_loop (c :: rest) m).res = .err e ∧
    (parse_dictionary_loop (c :: rest) m).rest = krest := by
  rw [parse_dictionary_loop]
  rw [if_neg hc]
  split
  · rename_i s' krest' heq
    rw [hk] at heq
    injection heq with h1 h2
    exact absurd h1 (by simp)
  · rename_i n' krest' heq
    rw [hk] at heq
    injection heq with h1 h2
    exact absurd h1 (by simp)
  · rename_i lv' krest' heq
    rw [hk] at heq
    injection heq with h1 h2
    exact absurd h1 (by simp)
  · rename_i dv' krest' heq
    rw [hk] at heq
    injection heq with h1 h2
    exact absurd h1 (by simp)
  · rename_i e' krest' heq
    rw [hk] at heq
    injection heq with h1 h2
    injection h1 with h1
    subst h1
    subst h2
    exact ⟨rfl, rfl⟩
  · rename_i krest' heq
    rw [hk] at heq
    injection heq with h1 h2
    exact absurd h1 (by simp)

theorem list_loop_nil (v : List BCObject) :
    (parse_list_loop [] v).res = .err "premature end of list string" ∧
    (parse_list_loop [] v).rest = [] := by
  rw [parse_list_loop]
  exact ⟨rfl, rfl⟩

theorem list_loop_e (rest : List Char) (v : List BCObject) :
    (parse_list_loop ('e' :: rest) v).res = .ok (.List v) ∧
    (parse_list_loop ('e' :: rest) v).rest = rest := by
  rw [parse_list_loop]
  simp

theorem list_loop_cons_ok {c : Char} (hc : ¬ c = 'e') {rest vrest : List Char}
    {x : BCObject} (v : List BCObject)
    (hv1 : (parse (c :: rest)).res = .ok x) (hv2 : (parse (c :: rest)).rest = vrest) :
    (parse_list_loop (c :: rest) v).res = (parse_list_loop vrest (v ++ [x])).res ∧
    (parse_list_loop (c :: rest) v).rest = (parse_list_loop vrest (v ++ [x])).rest := by
  rw [parse_list_loop]
  rw [if_neg hc]
  split
  · rename_i x' vrest' hle' hok' heq
    have hres := congrArg PRes.res heq
    have hrest := congrArg PRes.rest heq
    rw [hv1] at hres
    rw [hv2] at hrest
    dsimp only at hres hrest
    injection hres with hres
    subst hres
    subst hrest
    exact ⟨rfl, rfl⟩
  · rename_i e' vrest' hle' hok' heq
    have hres := congrArg PRes.res heq
    rw [hv1] at hres
    dsimp only at hres
    exact absurd hres (by simp)
  · rename_i vrest' hle' hok' heq
    have hres := congrArg PRes.res heq
    rw [hv1] at hres
    dsimp only at hres
    exact absurd hres (by simp)

theorem parse_head_d (t : List Char) :
    (parse ('d' :: t)).res = (parse_dictionary_loop t []).res ∧
    (parse ('d' :: t)).rest = (parse_dictionary_loop t []).rest := by
  rw [parse]
  simp [parse_dictionary]

theorem parse_head_l (t : List Char) :
    (parse ('l' :: t)).res = (parse_list_loop t []).res ∧
    (parse ('l' :: t)).rest = (parse_list_loop t []).rest := by
  rw [parse]
  simp [parse_list]

/-- Canonical decimal notation of an integer: an optional minus sign
followed by the decimal digits of the absolute value. -/
def int_decimal (n : Int) : List Char :=
  if n < 0 then '-' :: nat_decimal (-n).toNat else nat_decimal n.toNat

theorem isDigit_ne_e {c : Char} (hc : c.isDigit = true) : (c != 'e') = true := by
  simp [bne]
  rintro rfl
  simp [Char.isDigit] at hc

theorem isDigit_ne_colon {c : Char} (hc : c.isDigit = true) : (c != ':') = true := by
  simp [bne]
  rintro rfl
  simp [Char.isDigit] at hc

theorem nat_decimal_head_ne_zero {k : Nat} (hk : k ≠ 0) {c : Char} {rest : List Char}
    (h : nat_decimal k = c :: rest) : c ≠ '0' := by
  have hne : Nat.digits 10 k ≠ [] := Nat.digits_ne_nil_iff_ne_zero.mpr hk
  have hd : (nat_decimal k).head? = some (digit_char ((Nat.digits 10 k).getLast hne)) := by
    unfold nat_decimal
    rw [if_neg hk]
    rw [List.head?_map, List.head?_reverse, List.getLast?_eq_getLast _ hne]
    rfl
  rw [h] at hd
  simp only [List.head?_cons, Option.some_inj] at hd
  subst hd
  exact digit_char_ne_zero
    (Nat.digits_lt_base (by norm_num) (List.getLast_mem hne))
    (Nat.getLast_digit_ne_zero 10 hk)

/-- Success case of the integer rule: an `e`-free body that passes the two
canonical-form checks and parses as a 64-bit integer, enclosed in `i` and
`e`, yields that integer and leaves the rest of the input. -/
theorem parse_integer_spec (body tail : List Char) (n : Int)
    (hbody : ∀ c ∈ body, (c != 'e') = true)
    (hminus : ¬(2 ≤ body.length ∧ body.take 2 = ['-', '0']))
    (hzero : ¬(1 < body.length ∧ body.take 1 = ['0']))
    (hn : parse_i64 body = .ok n) :
    parse_integer ('i' :: (body ++ 'e' :: tail)) = (.ok (.Integer n), tail) := by
  simp only [parse_integer]
  rw [takeWhile_middle hbody (by decide) tail,
    dropWhile_middle hbody (by decide) tail]
  dsimp only
  rw [if_neg hminus, if_neg hzero, hn]

theorem parse_head_i (t : List Char) :
    (parse ('i' :: t)).res = (parse_integer ('i' :: t)).1 ∧
    (parse ('i' :: t)).rest = (parse_integer ('i' :: t)).2 := by
  rw [parse]
  simp

theorem int_decimal_ne_e (n : Int) : ∀ c ∈ int_decimal n, (c != 'e') = true := by
  intro c hc
  unfold int_decimal at hc
  split at hc
  · rcases List.mem_cons.mp hc with rfl | hc₂
    · decide
    · exact isDigit_ne_e (nat_decimal_digits _ c hc₂)
  · exact isDigit_ne_e (nat_decimal_digits _ c hc)

theorem parse_i64_int_decimal (n : Int) (hmin : i64_min ≤ n) (hmax : n ≤ i64_max) :
    parse_i64 (int_decimal n) = .ok n := by
  unfold int_decimal
  split
  · next hneg =>
    cases hnd : nat_decimal (-n).toNat with
    | nil => exact absurd hnd (nat_decimal_ne_nil _)
    | cons c rest =>
      have hval : digits_val (c :: rest) = (-n).toNat := by
        rw [← hnd]; exact digits_val_nat_decimal _
      have hall : (c :: rest).all (fun c => c.isDigit) = true := by
        rw [← hnd]
        simp only [List.all_eq_true]
        exact nat_decimal_digits _
      rw [parse_i64, if_pos (Or.inr rfl), if_neg (by simp), if_pos rfl]
      unfold parse_i64_digits
      rw [if_pos hall]
      dsimp only
      rw [hval]
      have hcast : ((-n).toNat : Int) = -n := Int.toNat_of_nonneg (by omega)
      rw [hcast]
      rw [if_neg (by unfold i64_min at hmin ⊢; omega)]
      rw [if_neg (by unfold i64_max; omega)]
      simp
  · next hpos =>
    have := parse_i64_nat_decimal n.toNat
      (by rw [Int.toNat_of_nonneg (by omega)]; exact hmax)
    rw [Int.toNat_of_nonneg (by omega)] at this
    exact this

theorem int_decimal_no_minus_zero (n : Int) :
    ¬(2 ≤ (int_decimal n).length ∧ (int_decimal n).take 2 = ['-', '0']) := by
  unfold int_decimal
  split
  · next hneg =>
    rintro ⟨hlen, htake⟩
    cases hnd : nat_decimal (-n).toNat with
    | nil => exact absurd hnd (nat_decimal_ne_nil _)
    | cons c rest =>
      rw [hnd] at htake
      have : c = '0' := by
        have := congrArg (fun l => l.get? 1) htake
        simpa using this
      exact nat_decimal_head_ne_zero (by omega) hnd this
  · next hpos =>
    rintro ⟨hlen, htake⟩
    cases hnd : nat_decimal n.toNat with
    | nil => exact absurd hnd (nat_decimal_ne_nil _)
    | cons c rest =>
      rw [hnd] at htake
      have hcd : c.isDigit = true := nat_decimal_digits _ c (by rw [hnd]; simp)
      have : c = '-' := by
        have := congrArg (fun l => l.get? 0) htake
        simpa using this
      subst this
      simp [Char.isDigit] at hcd

theorem int_decimal_no_leading_zero (n : Int) :
    ¬(1 < (int_decimal n).length ∧ (int_decimal n).take 1 = ['0']) := by
  unfold int_decimal
  split
  · next hneg =>
    rintro ⟨hlen, htake⟩
    simp at htake
  · next hpos =>
    rintro ⟨hlen, htake⟩
    cases hnd : nat_decimal n.toNat with
    | nil => exact absurd hnd (nat_decimal_ne_nil _)
    | cons c rest =>
      rw [hnd] at htake hlen
      have hc0 : c = '0' := by simpa using congrArg (fun l => l.get? 0) htake
      by_cases hz : n.toNat = 0
      · rw [hz] at hnd
        have h01 : nat_decimal 0 = ['0'] := by decide
        rw [h01] at hnd
        cases hnd
        simp at hlen
      · exact nat_decimal_head_ne_zero hz hnd hc0

/-- Claim C4: integer round trip and canonical-form rejections.  For every
64-bit integer `n`, decoding `i` + decimal(n) + `e` yields `Integer(n)` and
consumes the whole input, while the non-canonical bodies `-0`, `00`, `0123`
and `-0123` are each rejected with an error. -/
theorem c4_integer_roundtrip_and_rejections :
    (∀ n : Int, i64_min ≤ n → n ≤ i64_max →
      (parse ('i' :: (int_decimal n ++ ['e']))).res = .ok (.Integer n) ∧
      (parse ('i' :: (int_decimal n ++ ['e']))).rest = []) ∧
    parse_blob "i-0e" = .err "integer cannot start with or consist of -0" ∧
    parse_blob "i00e" = .err "integer cannot start with leading 0" ∧
    parse_blob "i0123e" = .err "integer cannot start with leading 0" ∧
    parse_blob "i-0123e" = .err "integer cannot start with or consist of -0" := by
  refine ⟨?_, ?_, ?_, ?_, ?_⟩
  · intro n hmin hmax
    have hspec := parse_integer_spec (int_decimal n) [] n
      (int_decimal_ne_e n)
      (int_decimal_no_minus_zero n)
      (int_decimal_no_leading_zero n)
      (parse_i64_int_decimal n hmin hmax)
    have hd := parse_head_i (int_decimal n ++ 'e' :: [])
    constructor
    · rw [hd.1, hspec]
    · rw [hd.2, hspec]
  · show (parse ['i', '-', '0', 'e']).res = _
    simp [parse, parse_integer]
  · show (parse ['i', '0', '0', 'e']).res = _
    simp [parse, parse_integer]
  · show (parse ['i', '0', '1', '2', '3', 'e']).res = _
    simp [parse, parse_integer]
  · show (parse ['i', '-', '0', '1', '2', '3', 'e']).res = _
    simp [parse, parse_integer]

/-- Witness for C4 at the in-range value `-2131` from the test suite. -/
theorem c4_witness :
    (parse ('i' :: (int_decimal (-2131) ++ ['e']))).res = .ok (.Integer (-2131)) ∧
    (parse ('i' :: (int_decimal (-2131) ++ ['e']))).rest = [] :=
  c4_integer_roundtrip_and_rejections.1 (-2131) (by decide) (by decide)

theorem list_loop_cons_err {c : Char} (hc : ¬ c = 'e') {rest : List Char}
    {e : String} (v : List BCObject) (hv : (parse (c :: rest)).res = .err e) :
    (parse_list_loop (c :: rest) v).res = .panic := by
  rw [parse_list_loop]
  rw [if_neg hc]
  split
  · rename_i x' vrest' hle' hok' heq
    have hres := congrArg PRes.res heq
    rw [hv] at hres
    dsimp only at hres
    exact absurd hres (by simp)
  · rfl
  · rfl

theorem list_loop_cons_panic {c : Char} (hc : ¬ c = 'e') {rest : List Char}
    (v : List BCObject) (hv : (parse (c :: rest)).res = .panic) :
    (parse_list_loop (c :: rest) v).res = .panic := by
  rw [parse_list_loop]
  rw [if_neg hc]
  split
  · rename_i x' vrest' hle' hok' heq
    have hres := congrArg PRes.res heq
    rw [hv] at hres
    dsimp only at hres
    exact absurd hres (by simp)
  · rfl
  · rfl

theorem dict_loop_cons_valerr {c : Char} (hc : ¬ c = 'e') {rest krest : List Char}
    {s : String} {e : String} (m : List (String × BCObject))
    (hk : parse_string (c :: rest) = (.ok (.String s), krest))
    (hv : (parse krest).res = .err e) :
    (parse_dictionary_loop (c :: rest) m).res = .err e ∧
    (parse_dictionary_loop (c :: rest) m).rest = (parse krest).rest := by
  rw [parse_dictionary_loop]
  rw [if_neg hc]
  split
  · rename_i s' krest' heq
    rw [hk] at heq
    injection heq with h1 h2
    injection h1 with h1
    injection h1 with h1
    subst h1
    subst h2
    split
    · rename_i x' vrest' hle' hok' heq2
      have hres := congrArg PRes.res heq2
      rw [hv] at hres
      dsimp only at hres
      exact absurd hres (by simp)
    · rename_i e' vrest' hle' hok' heq2
      have hres := congrArg PRes.res heq2
      have hrest := congrArg PRes.rest heq2
      rw [hv] at hres
      dsimp only at hres hrest
      injection hres with hres
      subst hres
      rw [hrest]
      exact ⟨rfl, rfl⟩
    · rename_i vrest' hle' hok' heq2
      have hres := congrArg PRes.res heq2
      rw [hv] at hres
      dsimp only at hres
      exact absurd hres (by simp)
  · rename_i n' krest' heq
    rw [hk] at heq
    injection heq with h1 h2
    exact absurd h1 (by simp)
  · rename_i lv' krest' heq
    rw [hk] at heq
    injection heq with h1 h2
    exact absurd h1 (by simp)
  · rename_i dv' krest' heq
    rw [hk] at heq
    injection heq with h1 h2
    exact absurd h1 (by simp)
  · rename_i e' krest' heq
    rw [hk] at heq
    injection heq with h1 h2
    exact absurd h1 (by simp)
  · rename_i krest' heq
    rw [hk] at heq
    injection heq with h1 h2
    exact absurd h1 (by simp)

theorem dict_loop_cons_valpanic {c : Char} (hc : ¬ c = 'e') {rest krest : List Char}
    {s : String} (m : List (String × BCObject))
    (hk : parse_string (c :: rest) = (.ok (.String s), krest))
    (hv : (parse krest).res = .panic) :
    (parse_dictionary_loop (c :: rest) m).res = .panic := by
  rw [parse_dictionary_loop]
  rw [if_neg hc]
  split
  · rename_i s' krest' heq
    rw [hk] at heq
    injection heq with h1 h2
    injection h1 with h1
    injection h1 with h1
    subst h1
    subst h2
    split
    · rename_i x' vrest' hle' hok' heq2
      have hres := congrArg PRes.res heq2
      rw [hv] at hres
      dsimp only at hres
      exact absurd hres (by simp)
    · rename_i e' vrest' hle' hok' heq2
      have hres := congrArg PRes.res heq2
      rw [hv] at hres
      dsimp only at hres
      exact absurd hres (by simp)
    · rfl
  · rename_i n' krest' heq
    rw [hk] at heq
    injection heq with h1 h2
    exact absurd h1 (by simp)
  · rename_i lv' krest' heq
    rw [hk] at heq
    injection heq with h1 h2
    exact absurd h1 (by simp)
  · rename_i dv' krest' heq
    rw [hk] at heq
    injection heq with h1 h2
    exact absurd h1 (by simp)
  · rename_i e' krest' heq
    rw [hk] at heq
    injection heq with h1 h2
    exact absurd h1 (by simp)
  · rfl

theorem read_chars_not_panic (n : Nat) (buff l : List Char) :
    (read_chars n buff l).1 ≠ .panic := by
  induction n generalizing buff l with
  | zero => simp [read_chars]
  | succ m ih =>
    cases l with
    | nil => simp [read_chars]
    | cons c rest => exact ih (buff ++ [c]) rest

theorem parse_string_not_panic (l : List Char) : (parse_string l).1 ≠ .panic := by
  unfold parse_string
  dsimp only
  split
  · simp
  · split
    · exact read_chars_not_panic _ _ _
    · simp

theorem parse_integer_only_integers (l : List Char) (v : BCObject)
    (h : (parse_integer l).1 = .ok v) : ∃ n, v = .Integer n := by
  revert h
  unfold parse_integer
  split
  · dsimp only
    split
    · intro h; exact absurd h (by simp)
    · split
      · intro h; exact absurd h (by simp)
      · split
        · intro h; exact absurd h (by simp)
        · split
          · rename_i n heq
            intro h
            injection h with h
            exact ⟨n, h.symm⟩
          · intro h; exact absurd h (by simp)
  · intro h; exact absurd h (by simp)
  · intro h; exact absurd h (by simp)

theorem parse_integer_not_panic (l : List Char) : (parse_integer l).1 ≠ .panic := by
  unfold parse_integer
  split
  · dsimp only
    split
    · simp
    · split
      · simp
      · split
        · simp
        · split <;> simp
  · simp
  · simp

/-- A well-formed encoding of a value: parsing it in front of any
continuation succeeds with that value and consumes exactly the encoding.
This is the semantic notion of a valid encoded item that the claims about
containers quantify over. -/
def Enc (v : BCObject) (w : List Char) : Prop :=
  ∀ s : List Char, (parse (w ++ s)).res = .ok v ∧ (parse (w ++ s)).rest = s

/-- Length-prefixed encoding of a dictionary key. -/
def key_enc (k : String) : List Char :=
  nat_decimal k.data.length ++ ':' :: k.data

theorem parse_string_key (k : String) (hk : (k.data.length : Int) ≤ i64_max)
    (s : List Char) :
    parse_string (key_enc k ++ s) = (.ok (.String k), s) := by
  have h := parse_string_spec (nat_decimal k.data.length) k.data s (k.data.length)
    (fun c hc => isDigit_ne_colon (nat_decimal_digits _ c hc))
    (parse_i64_nat_decimal _ hk)
    (by simp)
  have hmk : String.mk k.data = k := rfl
  rw [hmk] at h
  unfold key_enc
  rw [List.append_assoc]
  exact h

theorem key_enc_head (k : String) :
    ∃ c rest, key_enc k = c :: rest ∧ c.isDigit = true := by
  cases hnd : nat_decimal k.data.length with
  | nil => exact absurd hnd (nat_decimal_ne_nil _)
  | cons c rest =>
    refine ⟨c, rest ++ ':' :: k.data, ?_, ?_⟩
    · unfold key_enc; rw [hnd]; simp
    · exact nat_decimal_digits _ c (by rw [hnd]; simp)

/-- Concatenated encodings of key-value pairs; each pair contributes its
key encoding followed by the given encoding of its value. -/
def pair_encs : List ((String × BCObject) × List Char) → List Char
  | [] => []
  | ((k, _), w) :: rest => key_enc k ++ w ++ pair_encs rest

/-- The mapping built directly: the key-value pairs inserted in order into
the map `m`, exactly as the dictionary loop and the unit tests build it. -/
def build_map (m : List (String × BCObject)) (pvs : List (String × BCObject)) :
    List (String × BCObject) :=
  pvs.foldl (fun acc p => btree_insert acc p.1 p.2) m

theorem isDigit_not_e {c : Char} (hc : c.isDigit = true) : ¬ c = 'e' := by
  have h := isDigit_ne_e hc
  simp [bne] at h
  exact h

/-- Running the dictionary loop over concatenated well-formed pairs followed
by the closing `e`: every pair is inserted in order and the loop stops at
the `e`. -/
theorem dict_loop_chain (pvs : List ((String × BCObject) × List Char))
    (m : List (String × BCObject)) (tail : List Char)
    (hkeys : ∀ p ∈ pvs, (p.1.1.data.length : Int) ≤ i64_max)
    (hencs : ∀ p ∈ pvs, Enc p.1.2 p.2) :
    (parse_dictionary_loop (pair_encs pvs ++ 'e' :: tail) m).res =
      .ok (.Dictionary (build_map m (pvs.map (·.1)))) ∧
    (parse_dictionary_loop (pair_encs pvs ++ 'e' :: tail) m).rest = tail := by
  induction pvs generalizing m with
  | nil =>
    have h := dict_loop_e tail m
    simpa [pair_encs, build_map] using h
  | cons p rest ih =>
    obtain ⟨⟨k, v⟩, w⟩ := p
    obtain ⟨c, r₀, hke, hcdig⟩ := key_enc_head k
    have hc : ¬ c = 'e' := isDigit_not_e hcdig
    have hkey : (k.data.length : Int) ≤ i64_max := hkeys ((k, v), w) (by simp)
    have henc : Enc v w := hencs ((k, v), w) (by simp)
    have heq : pair_encs (((k, v), w) :: rest) ++ 'e' :: tail =
        c :: (r₀ ++ (w ++ (pair_encs rest ++ 'e' :: tail))) := by
      show ((key_enc k ++ w) ++ pair_encs rest) ++ 'e' :: tail = _
      rw [List.append_assoc, List.append_assoc, hke, List.cons_append]
    have hkstr := parse_string_key k hkey (w ++ (pair_encs rest ++ 'e' :: tail))
    rw [hke, List.cons_append] at hkstr
    have hv := henc (pair_encs rest ++ 'e' :: tail)
    have step := dict_loop_cons_ok hc m hkstr hv.1 hv.2
    have hrec := ih (btree_insert m k v)
      (fun q hq => hkeys q (by simp [hq]))
      (fun q hq => hencs q (by simp [hq]))
    constructor
    · rw [heq, step.1, hrec.1]
      rfl
    · rw [heq, step.2, hrec.2]

/-- Claim C8: when an otherwise well-formed dictionary input binds the same
key twice, decoding succeeds and the later value overwrites the earlier one;
the decoded dictionary holds only the second binding and no duplicate-key
error is raised. -/
theorem c8_duplicate_key_last_wins (k : String) (v₁ v₂ : BCObject)
    (w₁ w₂ : List Char) (hk : (k.data.length : Int) ≤ i64_max)
    (h₁ : Enc v₁ w₁) (h₂ : Enc v₂ w₂) :
    (parse ('d' :: (pair_encs [((k, v₁), w₁), ((k, v₂), w₂)] ++ ['e']))).res =
      .ok (.Dictionary [(k, v₂)]) ∧
    (parse ('d' :: (pair_encs [((k, v₁), w₁), ((k, v₂), w₂)] ++ ['e']))).rest = [] := by
  have hchain := dict_loop_chain [((k, v₁), w₁), ((k, v₂), w₂)] [] []
    (by
      intro p hp
      rcases List.mem_cons.mp hp with rfl | hp₂
      · exact hk
      · rcases List.mem_cons.mp hp₂ with rfl | hp₃
        · exact hk
        · simp at hp₃)
    (by
      intro p hp
      rcases List.mem_cons.mp hp with rfl | hp₂
      · exact h₁
      · rcases List.mem_cons.mp hp₂ with rfl | hp₃
        · exact h₂
        · simp at hp₃)
  have hd := parse_head_d (pair_encs [((k, v₁), w₁), ((k, v₂), w₂)] ++ 'e' :: [])
  have hmap : build_map [] ([((k, v₁), w₁), ((k, v₂), w₂)].map (·.1)) = [(k, v₂)] := by
    simp only [List.map_cons, List.map_nil]
    simp only [build_map, List.foldl_cons, List.foldl_nil]
    simp only [btree_insert]
    rw [if_neg (lt_irrefl k)]
    simp
  constructor
  · rw [hd.1, hchain.1, hmap]
  · rw [hd.2, hchain.2]

/-- Witness for C8 with key `a` bound first to `Integer 1` and then to
`Integer 2`. -/
theorem c8_witness :
    (parse ('d' :: (pair_encs [(("a", .Integer 1), ['i', '1', 'e']),
        (("a", .Integer 2), ['i', '2', 'e'])] ++ ['e']))).res =
      .ok (.Dictionary [("a", .Integer 2)]) ∧
    (parse ('d' :: (pair_encs [(("a", .Integer 1), ['i', '1', 'e']),
        (("a", .Integer 2), ['i', '2', 'e'])] ++ ['e']))).rest = [] := by
  refine c8_duplicate_key_last_wins "a" (.Integer 1) (.Integer 2)
    ['i', '1', 'e'] ['i', '2', 'e'] (by decide) ?_ ?_
  · intro s
    have hspec := parse_integer_spec ['1'] s 1 (by decide) (by decide) (by decide) (by rfl)
    have hd := parse_head_i (['1'] ++ 'e' :: s)
    constructor
    · show (parse ('i' :: (['1'] ++ 'e' :: s))).res = _
      rw [hd.1, hspec]
    · show (parse ('i' :: (['1'] ++ 'e' :: s))).rest = _
      rw [hd.2, hspec]
  · intro s
    have hspec := parse_integer_spec ['2'] s 2 (by decide) (by decide) (by decide) (by rfl)
    have hd := parse_head_i (['2'] ++ 'e' :: s)
    constructor
    · show (parse ('i' :: (['2'] ++ 'e' :: s))).res = _
      rw [hd.1, hspec]
    · show (parse ('i' :: (['2'] ++ 'e' :: s))).rest = _
      rw [hd.2, hspec]

theorem read_chars_ok (n : Nat) (buff l : List Char) (v : BCObject)
    (h : (read_chars n buff l).1 = .ok v) : ∃ s, v = .String s := by
  induction n generalizing buff l with
  | zero =>
    simp only [read_chars] at h
    injection h with h
    exact ⟨String.mk buff, h.symm⟩
  | succ m ih =>
    cases l with
    | nil => simp [read_chars] at h
    | cons c rest => exact ih (buff ++ [c]) rest h

/-- The string rule only ever succeeds with a `String` value: the sanity
branch of the dictionary rule for a non-string key success is unreachable. -/
theorem parse_string_only_strings (l : List Char) (v : BCObject) (r : List Char)
    (h : parse_string l = (.ok v, r)) : ∃ s, v = .String s := by
  unfold parse_string at h
  revert h
  dsimp only
  split
  · intro h
    injection h with h1 h2
    exact absurd h1 (by simp)
  · split
    · intro h
      exact read_chars_ok _ _ _ v (congrArg Prod.fst h)
    · intro h
      injection h with h1 h2
      exact absurd h1 (by simp)

/-- Claim C2 (amended): a key position that fails the string rule makes the
whole decode fail, but with the string rule error propagated verbatim, not
with the distinct non-string-key error (whose branch is unreachable, as the
second conjunct shows: the string rule only produces `String` values). -/
theorem c2_dictionary_key_failure (c : Char) (rest krest : List Char)
    (e : String) (hc : ¬ c = 'e')
    (hk : parse_string (c :: rest) = (.err e, krest)) :
    (parse ('d' :: c :: rest)).res = .err e ∧
    (∀ l v r, parse_string l = (.ok v, r) → ∃ s, v = .String s) := by
  constructor
  · have hd := parse_head_d (c :: rest)
    have hstep := dict_loop_cons_keyerr hc [] hk
    rw [hd.1, hstep.1]
  · exact parse_string_only_strings

/-- Witness for C2 at the input `di1e1:ae`, whose key position starts with
an integer encoding: the failure is the malformed-length error of the string
rule on the body `i1e1`. -/
theorem c2_witness :
    (parse ('d' :: 'i' :: ['1', 'e', '1', ':', 'a'])).res =
      .err "invalid digit found in string" ∧
    (∀ l v r, parse_string l = (.ok v, r) → ∃ s, v = .String s) :=
  c2_dictionary_key_failure 'i' ['1', 'e', '1', ':', 'a'] [':', 'a']
    "invalid digit found in string" (by decide) (by rfl)

/-- Counterexample for C2 as stated: at the input `di1e1:ae` the key
position does not contain a valid length-prefixed string, and the decode
error is the propagated string rule error `invalid digit found in string`,
which is not the non-string-key message of the dictionary rule. -/
theorem c2_counterexample :
    parse_blob "di1e1:ae" = .err "invalid digit found in string" ∧
    "invalid digit found in string" ≠ "key was not a string type - abort" := by
  constructor
  · show (parse ['d', 'i', '1', 'e', '1', ':', 'a', 'e']).res = _
    have hd := parse_head_d ['i', '1', 'e', '1', ':', 'a', 'e']
    have hk : parse_string ['i', '1', 'e', '1', ':', 'a', 'e'] =
        (.err "invalid digit found in string", [':', 'a', 'e']) := by rfl
    have hstep := dict_loop_cons_keyerr (c := 'i') (by decide) [] hk
    rw [hd.1, hstep.1]
  · decide

theorem insert_head_lt {k k₀ : String} {v v₀ : BCObject} {rest : List (String × BCObject)}
    (h : k < k₀) :
    btree_insert ((k₀, v₀) :: rest) k v = (k, v) :: (k₀, v₀) :: rest := by
  simp only [btree_insert]
  rw [if_pos h]

theorem insert_head_eq {k k₀ : String} {v v₀ : BCObject} {rest : List (String × BCObject)}
    (h : k = k₀) :
    btree_insert ((k₀, v₀) :: rest) k v = (k, v) :: rest := by
  simp only [btree_insert]
  rw [if_neg (by rw [h]; exact lt_irrefl k₀), if_pos h]

theorem insert_head_gt {k k₀ : String} {v v₀ : BCObject} {rest : List (String × BCObject)}
    (h : k₀ < k) :
    btree_insert ((k₀, v₀) :: rest) k v = (k₀, v₀) :: btree_insert rest k v := by
  simp only [btree_insert]
  rw [if_neg (asymm h), if_neg (ne_of_gt h)]

theorem mem_btree_insert {m : List (String × BCObject)} {k : String} {v : BCObject}
    {q : String × BCObject} (h : q ∈ btree_insert m k v) : q = (k, v) ∨ q ∈ m := by
  induction m with
  | nil => simpa [btree_insert] using h
  | cons p rest ih =>
    obtain ⟨k₀, v₀⟩ := p
    unfold btree_insert at h
    split at h
    · rcases List.mem_cons.mp h with rfl | h2
      · exact Or.inl rfl
      · exact Or.inr h2
    · split at h
      · rcases List.mem_cons.mp h with rfl | h2
        · exact Or.inl rfl
        · exact Or.inr (List.mem_cons_of_mem _ h2)
      · rcases List.mem_cons.mp h with rfl | h2
        · exact Or.inr (List.mem_cons_self _ _)
        · rcases ih h2 with h3 | h3
          · exact Or.inl h3
          · exact Or.inr (List.mem_cons_of_mem _ h3)

/-- Keys of a `BTreeMap` model are strictly ascending; `insert` preserves
this, exactly as the Rust `BTreeMap` maintains its ordering invariant. -/
theorem btree_insert_sorted {m : List (String × BCObject)}
    (h : List.Pairwise (fun a b : String × BCObject => a.1 < b.1) m)
    (k : String) (v : BCObject) :
    List.Pairwise (fun a b : String × BCObject => a.1 < b.1) (btree_insert m k v) := by
  induction m with
  | nil => simp [btree_insert]
  | cons p rest ih =>
    obtain ⟨k₀, v₀⟩ := p
    obtain ⟨hhead, htail⟩ := List.pairwise_cons.mp h
    by_cases h1 : k < k₀
    · rw [insert_head_lt h1]
      refine List.pairwise_cons.mpr ⟨?_, h⟩
      intro q hq
      rcases List.mem_cons.mp hq with rfl | hq2
      · exact h1
      · exact lt_trans h1 (hhead q hq2)
    · by_cases h2 : k = k₀
      · rw [insert_head_eq h2]
        refine List.pairwise_cons.mpr ⟨?_, htail⟩
        intro q hq
        rw [h2]
        exact hhead q hq
      · have h3 : k₀ < k := by
          rcases lt_trichotomy k k₀ with h4 | h4 | h4
          · exact absurd h4 h1
          · exact absurd h4 h2
          · exact h4
        rw [insert_head_gt h3]
        refine List.pairwise_cons.mpr ⟨?_, ih htail⟩
        intro q hq
        rcases mem_btree_insert hq with rfl | hq2
        · exact h3
        · exact hhead q hq2

theorem sorted_nodup {m : List (String × BCObject)}
    (h : List.Pairwise (fun a b : String × BCObject => a.1 < b.1) m) :
    (m.map Prod.fst).Nodup := by
  have h2 : List.Pairwise (fun a b : String => a ≠ b) (m.map Prod.fst) := by
    rw [List.pairwise_map]
    exact h.imp (fun hlt => ne_of_lt hlt)
  exact h2

/-- Well-formedness of a decoded value: every dictionary node in the tree
binds pairwise distinct keys, which holds for every map the decoder builds
(it inserts into a key-sorted map). -/
def wf_val : BCObject → Prop
  | .String _ => True
  | .Integer _ => True
  | .List vs => ∀ v ∈ vs, wf_val v
  | .Dictionary m => (m.map Prod.fst).Nodup ∧ ∀ p ∈ m, wf_val p.2
termination_by v => sizeOf v
decreasing_by
· rename_i hmem
  have h1 := List.sizeOf_lt_of_mem hmem
  simp_wf
  omega
· rename_i hmem
  have h1 := List.sizeOf_lt_of_mem hmem
  have h2 : sizeOf p.2 < sizeOf p := by
    obtain ⟨a, b⟩ := p
    simp_arith
  simp_wf
  omega

/-- Every value the decoder returns is well formed: dictionaries built by
the key-sorted insert have distinct keys, recursively.  Proved together
with the corresponding invariants of the two container loops by strong
induction on the input length. -/
theorem parse_wf_all : ∀ n : Nat, ∀ l : List Char, l.length ≤ n →
    (∀ v, (parse l).res = .ok v → wf_val v) ∧
    (∀ acc v, (∀ a ∈ acc, wf_val a) →
      (parse_list_loop l acc).res = .ok v → wf_val v) ∧
    (∀ m v, List.Pairwise (fun a b : String × BCObject => a.1 < b.1) m →
      (∀ p ∈ m, wf_val p.2) →
      (parse_dictionary_loop l m).res = .ok v → wf_val v) := by
  intro n
  induction n with
  | zero =>
    intro l hl
    have hnil : l = [] := List.length_eq_zero.mp (Nat.le_zero.mp hl)
    subst hnil
    refine ⟨?_, ?_, ?_⟩
    · intro v hv
      rw [parse] at hv
      exact absurd hv (by simp)
    · intro acc v _ hv
      rw [(list_loop_nil acc).1] at hv
      exact absurd hv (by simp)
    · intro m v _ _ hv
      rw [(dict_loop_nil m).1] at hv
      exact absurd hv (by simp)
  | succ n ih =>
    intro l hl
    have hparse : ∀ l₂ : List Char, l₂.length ≤ n + 1 →
        ∀ v, (parse l₂).res = .ok v → wf_val v := by
      intro l₂ hl₂ v hv
      cases l₂ with
      | nil =>
        rw [parse] at hv
        exact absurd hv (by simp)
      | cons c t =>
        have ht : t.length ≤ n := by
          simp only [List.length_cons] at hl₂
          omega
        by_cases hi : c = 'i'
        · subst hi
          rw [(parse_head_i t).1] at hv
          obtain ⟨nn, rfl⟩ := parse_integer_only_integers _ v hv
          simp [wf_val]
        · by_cases hdd : c = 'd'
          · subst hdd
            rw [(parse_head_d t).1] at hv
            exact (ih t ht).2.2 [] v (by simp) (by simp) hv
          · by_cases hll : c = 'l'
            · subst hll
              rw [(parse_head_l t).1] at hv
              exact (ih t ht).2.1 [] v (by simp) hv
            · by_cases hdig : '0' ≤ c ∧ c ≤ '9'
              · have hd : (parse (c :: t)).res = (parse_string (c :: t)).1 := by
                  rw [parse]
                  rw [if_neg hi, if_neg hdd, if_neg hll, if_pos hdig]
                rw [hd] at hv
                have hpair : parse_string (c :: t) = (.ok v, (parse_string (c :: t)).2) :=
                  Prod.ext hv rfl
                obtain ⟨s, rfl⟩ := parse_string_only_strings _ v _ hpair
                simp [wf_val]
              · have hd : (parse (c :: t)).res = .err ("not implemented: " ++ toString c) := by
                  rw [parse]
                  rw [if_neg hi, if_neg hdd, if_neg hll, if_neg hdig]
                rw [hd] at hv
                exact absurd hv (by simp)
    refine ⟨hparse l hl, ?_, ?_⟩
    · intro acc v hacc hv
      cases l with
      | nil =>
        rw [(list_loop_nil acc).1] at hv
        exact absurd hv (by simp)
      | cons c t =>
        by_cases hce : c = 'e'
        · subst hce
          rw [(list_loop_e t acc).1] at hv
          injection hv with hv
          subst hv
          simp only [wf_val]
          exact hacc
        · cases hres : (parse (c :: t)).res with
          | ok x =>
            rw [(list_loop_cons_ok hce acc hres rfl).1] at hv
            have hlt := (parse (c :: t)).hok x hres
            have hrle : (parse (c :: t)).rest.length ≤ n := by
              simp only [List.length_cons] at hl hlt
              omega
            have hx : wf_val x := hparse (c :: t) hl x hres
            refine (ih _ hrle).2.1 (acc ++ [x]) v ?_ hv
            intro a ha
            rcases List.mem_append.mp ha with ha | ha
            · exact hacc a ha
            · simp only [List.mem_singleton] at ha
              subst ha
              exact hx
          | err e =>
            rw [list_loop_cons_err hce acc hres] at hv
            exact absurd hv (by simp)
          | panic =>
            rw [list_loop_cons_panic hce acc hres] at hv
            exact absurd hv (by simp)
    · intro m v hsort hwfm hv
      cases l with
      | nil =>
        rw [(dict_loop_nil m).1] at hv
        exact absurd hv (by simp)
      | cons c t =>
        by_cases hce : c = 'e'
        · subst hce
          rw [(dict_loop_e t m).1] at hv
          injection hv with hv
          subst hv
          simp only [wf_val]
          exact ⟨sorted_nodup hsort, hwfm⟩
        · rcases hkp : parse_string (c :: t) with ⟨kres, krest⟩
          cases kres with
          | ok kv =>
            obtain ⟨s, rfl⟩ := parse_string_only_strings _ _ _ hkp
            have hkle : krest.length ≤ (c :: t).length := by
              have h₁ := parse_string_le (c :: t)
              rw [hkp] at h₁
              exact h₁
            cases hvres : (parse krest).res with
            | ok x =>
              rw [(dict_loop_cons_ok hce m hkp hvres rfl).1] at hv
              have hlt := (parse krest).hok x hvres
              have hrle : (parse krest).rest.length ≤ n := by
                simp only [List.length_cons] at hl hkle
                omega
              have hkl2 : krest.length ≤ n + 1 := le_trans hkle hl
              have hx : wf_val x := hparse krest hkl2 x hvres
              refine (ih _ hrle).2.2 (btree_insert m s x) v
                (btree_insert_sorted hsort s x) ?_ hv
              intro p hp
              rcases mem_btree_insert hp with rfl | hp2
              · exact hx
              · exact hwfm p hp2
            | err e =>
              rw [(dict_loop_cons_valerr hce m hkp hvres).1] at hv
              exact absurd hv (by simp)
            | panic =>
              rw [dict_loop_cons_valpanic hce m hkp hvres] at hv
              exact absurd hv (by simp)
          | err e =>
            rw [(dict_loop_cons_keyerr hce m hkp).1] at hv
            exact absurd hv (by simp)
          | panic =>
            exact absurd (congrArg Prod.fst hkp) (parse_string_not_panic (c :: t))

theorem parse_ok_wf (l : List Char) (v : BCObject) (h : (parse l).res = .ok v) :
    wf_val v :=
  (parse_wf_all l.length l (Nat.le_refl _)).1 v h

theorem assoc_get_self {m : List (String × BCObject)}
    (hnodup : (m.map Prod.fst).Nodup) {k : String} {v : BCObject}
    (h : (k, v) ∈ m) : assoc_get m k = some v := by
  induction m with
  | nil => simp at h
  | cons p rest ih =>
    obtain ⟨k₀, v₀⟩ := p
    simp only [List.map_cons, List.nodup_cons] at hnodup
    rcases List.mem_cons.mp h with heq | h2
    · injection heq with e1 e2
      subst e1
      subst e2
      simp [assoc_get]
    · have hk : ¬ (k₀ == k) = true := by
        simp only [beq_iff_eq]
        intro heq
        subst heq
        exact hnodup.1 (List.mem_map_of_mem Prod.fst h2)
      simp only [assoc_get]
      rw [if_neg hk]
      exact ih hnodup.2 h2

theorem bcobject_sizeOf_pos (v : BCObject) : 0 < sizeOf v := by
  cases v <;> simp_arith

theorem bc_eq_list_refl_aux (N : Nat)
    (ihN : ∀ v : BCObject, sizeOf v ≤ N → wf_val v → bc_eq v v = true) :
    ∀ vs : List BCObject, (∀ v ∈ vs, sizeOf v ≤ N) → (∀ v ∈ vs, wf_val v) →
      bc_eq_list vs vs = true := by
  intro vs
  induction vs with
  | nil =>
    intro _ _
    rw [bc_eq_list]
  | cons x xs ihl =>
    intro hsz hwf
    rw [bc_eq_list]
    rw [Bool.and_eq_true]
    constructor
    · exact ihN x (hsz x (by simp)) (hwf x (by simp))
    · exact ihl (fun v hv => hsz v (by simp [hv])) (fun v hv => hwf v (by simp [hv]))

theorem bc_eq_dict_refl_aux (N : Nat)
    (ihN : ∀ v : BCObject, sizeOf v ≤ N → wf_val v → bc_eq v v = true)
    (m : List (String × BCObject))
    (hsz : ∀ p ∈ m, sizeOf p.2 ≤ N) (hwf : ∀ p ∈ m, wf_val p.2)
    (hnodup : (m.map Prod.fst).Nodup) :
    ∀ rest : List (String × BCObject), (∀ p ∈ rest, p ∈ m) →
      bc_eq_dict rest m = true := by
  intro rest
  induction rest with
  | nil =>
    intro _
    rw [bc_eq_dict]
  | cons p rest₂ ihr =>
    intro hsub
    obtain ⟨k, v⟩ := p
    rw [bc_eq_dict]
    rw [Bool.and_eq_true]
    constructor
    · rw [assoc_get_self hnodup (hsub (k, v) (by simp))]
      exact ihN v (hsz (k, v) (hsub (k, v) (by simp))) (hwf (k, v) (hsub (k, v) (by simp)))
    · exact ihr (fun q hq => hsub q (by simp [hq]))

theorem bc_eq_refl_aux : ∀ (N : Nat) (v : BCObject), sizeOf v ≤ N → wf_val v →
    bc_eq v v = true := by
  intro N
  induction N with
  | zero =>
    intro v hv _
    have := bcobject_sizeOf_pos v
    omega
  | succ N ihN =>
    intro v hsz hwf
    cases v with
    | String s => simp [bc_eq]
    | Integer i => simp [bc_eq]
    | List vs =>
      rw [bc_eq]
      rw [if_pos rfl]
      refine bc_eq_list_refl_aux N ihN vs ?_ ?_
      · intro v hv
        have h1 := List.sizeOf_lt_of_mem hv
        have h2 : sizeOf (BCObject.List vs) = 1 + sizeOf vs := by simp_arith
        omega
      · intro v hv
        have := hwf
        simp only [wf_val] at this
        exact this v hv
    | Dictionary m =>
      rw [bc_eq]
      rw [if_pos rfl]
      simp only [wf_val] at hwf
      refine bc_eq_dict_refl_aux N ihN m ?_ hwf.2 hwf.1 m (fun q hq => hq)
      intro p hp
      have h1 := List.sizeOf_lt_of_mem hp
      have h2 : sizeOf (BCObject.Dictionary m) = 1 + sizeOf m := by simp_arith
      have h3 : sizeOf p.2 < sizeOf p := by
        obtain ⟨a, b⟩ := p
        simp_arith
      omega

/-- The embedded `PartialEq` of `BCObject` is reflexive on every well
formed value, in particular on every value the decoder returns. -/
theorem bc_eq_refl (v : BCObject) (h : wf_val v) : bc_eq v v = true :=
  bc_eq_refl_aux (sizeOf v) v (Nat.le_refl _) h

/-- Inserting two bindings with distinct keys into the sorted map model
commutes; this is what makes the decoded dictionary independent of the
order of the input pairs. -/
theorem btree_insert_comm (k₁ k₂ : String) (v₁ v₂ : BCObject) (hne : k₁ ≠ k₂) :
    ∀ m : List (String × BCObject),
      btree_insert (btree_insert m k₁ v₁) k₂ v₂ =
        btree_insert (btree_insert m k₂ v₂) k₁ v₁ := by
  intro m
  induction m with
  | nil =>
    show btree_insert [(k₁, v₁)] k₂ v₂ = btree_insert [(k₂, v₂)] k₁ v₁
    rcases lt_trichotomy k₁ k₂ with h | h | h
    · rw [insert_head_gt h, insert_head_lt h]
      rfl
    · exact absurd h hne
    · rw [insert_head_lt h, insert_head_gt h]
      rfl
  | cons p rest ih =>
    obtain ⟨k₀, v₀⟩ := p
    rcases lt_trichotomy k₁ k₀ with h₁ | h₁ | h₁ <;>
      rcases lt_trichotomy k₂ k₀ with h₂ | h₂ | h₂
    · rw [insert_head_lt h₁, insert_head_lt h₂]
      rcases lt_trichotomy k₁ k₂ with h₃ | h₃ | h₃
      · rw [insert_head_gt h₃, insert_head_lt h₂, insert_head_lt h₃]
      · exact absurd h₃ hne
      · rw [insert_head_lt h₃, insert_head_gt h₃, insert_head_lt h₁]
    · have h₃ : k₁ < k₂ := by rw [h₂]; exact h₁
      rw [insert_head_lt h₁, insert_head_eq h₂, insert_head_gt h₃,
        insert_head_eq h₂, insert_head_lt h₃]
    · have h₃ : k₁ < k₂ := lt_trans h₁ h₂
      rw [insert_head_lt h₁, insert_head_gt h₂, insert_head_gt h₃,
        insert_head_gt h₂, insert_head_lt h₁]
    · have h₃ : k₂ < k₁ := by rw [h₁]; exact h₂
      rw [insert_head_eq h₁, insert_head_lt h₂, insert_head_lt h₃,
        insert_head_gt h₃, insert_head_eq h₁]
    · exact absurd (h₁.trans h₂.symm) hne
    · have h₃ : k₁ < k₂ := by rw [h₁]; exact h₂
      rw [insert_head_eq h₁, insert_head_gt h₂, insert_head_gt h₃,
        insert_head_eq h₁]
    · have h₃ : k₂ < k₁ := lt_trans h₂ h₁
      rw [insert_head_gt h₁, insert_head_lt h₂, insert_head_lt h₂,
        insert_head_gt h₃, insert_head_gt h₁]
    · have h₃ : k₂ < k₁ := by rw [h₂]; exact h₁
      rw [insert_head_gt h₁, insert_head_eq h₂, insert_head_eq h₂,
        insert_head_gt h₃]
    · rw [insert_head_gt h₁, insert_head_gt h₂, insert_head_gt h₂,
        insert_head_gt h₁, ih]

/-- Building the map from pairs with pairwise distinct keys does not depend
on the order of the pairs. -/
theorem build_map_perm {ps qs : List (String × BCObject)}
    (hperm : ps.Perm qs) (hnodup : (ps.map Prod.fst).Nodup) :
    build_map [] ps = build_map [] qs := by
  unfold build_map
  refine hperm.foldl_eq' ?_ []
  intro x hx y hy z
  by_cases hxy : x = y
  · subst hxy
    rfl
  · have hkne : x.1 ≠ y.1 := by
      intro hk
      exact hxy (List.inj_on_of_nodup_map hnodup hx hy hk)
    exact btree_insert_comm x.1 y.1 x.2 y.2 hkne z

/-- Canonical integer encodings are well-formed encodings in the sense of
`Enc`. -/
theorem enc_integer (n : Int) (hmin : i64_min ≤ n) (hmax : n ≤ i64_max) :
    Enc (.Integer n) ('i' :: int_decimal n ++ ['e']) := by
  intro s
  have hspec := parse_integer_spec (int_decimal n) s n (int_decimal_ne_e n)
    (int_decimal_no_minus_zero n) (int_decimal_no_leading_zero n)
    (parse_i64_int_decimal n hmin hmax)
  have heq : ('i' :: int_decimal n ++ ['e']) ++ s = 'i' :: (int_decimal n ++ 'e' :: s) := by
    simp
  rw [heq]
  have hd := parse_head_i (int_decimal n ++ 'e' :: s)
  rw [hd.1, hd.2, hspec]
  exact ⟨rfl, rfl⟩

/-- Claim C7: decoding `d` + concatenated well-formed key-value pairs + `e`
with pairwise distinct keys yields exactly the dictionary built directly by
inserting the pairs, consumes the whole input; the built dictionary does not
depend on the order of the pairs; and it compares equal to itself under the
embedded `PartialEq` (the comparison the claim refers to). -/
theorem c7_dictionary_roundtrip_order_independent
    (pvs : List ((String × BCObject) × List Char))
    (hkeys : ∀ p ∈ pvs, (p.1.1.data.length : Int) ≤ i64_max)
    (hencs : ∀ p ∈ pvs, Enc p.1.2 p.2)
    (hnodup : ((pvs.map (·.1)).map Prod.fst).Nodup) :
    ((parse ('d' :: (pair_encs pvs ++ ['e']))).res =
        .ok (.Dictionary (build_map [] (pvs.map (·.1)))) ∧
      (parse ('d' :: (pair_encs pvs ++ ['e']))).rest = []) ∧
    (∀ qs : List (String × BCObject), qs.Perm (pvs.map (·.1)) →
      build_map [] qs = build_map [] (pvs.map (·.1))) ∧
    bc_eq (.Dictionary (build_map [] (pvs.map (·.1))))
      (.Dictionary (build_map [] (pvs.map (·.1)))) = true := by
  have hchain := dict_loop_chain pvs [] [] hkeys hencs
  have hd := parse_head_d (pair_encs pvs ++ 'e' :: [])
  refine ⟨⟨?_, ?_⟩, ?_, ?_⟩
  · rw [hd.1, hchain.1]
  · rw [hd.2, hchain.2]
  · intro qs hq
    refine build_map_perm hq ?_
    exact ((hq.map Prod.fst).nodup_iff).mpr hnodup
  · apply bc_eq_refl
    have hok : (parse ('d' :: (pair_encs pvs ++ ['e']))).res =
        .ok (.Dictionary (build_map [] (pvs.map (·.1)))) := by
      rw [hd.1, hchain.1]
    exact parse_ok_wf _ _ hok

/-- Witness for C7 with the two pairs `b = 1` and `a = 2` given in
non-sorted order. -/
theorem c7_witness :
    ((parse ('d' :: (pair_encs [(("b", .Integer 1), 'i' :: int_decimal 1 ++ ['e']),
          (("a", .Integer 2), 'i' :: int_decimal 2 ++ ['e'])] ++ ['e']))).res =
        .ok (.Dictionary (build_map []
          ([(("b", BCObject.Integer 1), 'i' :: int_decimal 1 ++ ['e']),
            (("a", BCObject.Integer 2), 'i' :: int_decimal 2 ++ ['e'])].map (·.1)))) ∧
      (parse ('d' :: (pair_encs [(("b", .Integer 1), 'i' :: int_decimal 1 ++ ['e']),
          (("a", .Integer 2), 'i' :: int_decimal 2 ++ ['e'])] ++ ['e']))).rest = []) ∧
    (∀ qs : List (String × BCObject),
      qs.Perm ([(("b", BCObject.Integer 1), 'i' :: int_decimal 1 ++ ['e']),
          (("a", BCObject.Integer 2), 'i' :: int_decimal 2 ++ ['e'])].map (·.1)) →
      build_map [] qs = build_map []
        ([(("b", BCObject.Integer 1), 'i' :: int_decimal 1 ++ ['e']),
          (("a", BCObject.Integer 2), 'i' :: int_decimal 2 ++ ['e'])].map (·.1))) ∧
    bc_eq (.Dictionary (build_map []
        ([(("b", BCObject.Integer 1), 'i' :: int_decimal 1 ++ ['e']),
          (("a", BCObject.Integer 2), 'i' :: int_decimal 2 ++ ['e'])].map (·.1))))
      (.Dictionary (build_map []
        ([(("b", BCObject.Integer 1), 'i' :: int_decimal 1 ++ ['e']),
          (("a", BCObject.Integer 2), 'i' :: int_decimal 2 ++ ['e'])].map (·.1)))) = true := by
  refine c7_dictionary_roundtrip_order_independent
    [(("b", .Integer 1), 'i' :: int_decimal 1 ++ ['e']),
     (("a", .Integer 2), 'i' :: int_decimal 2 ++ ['e'])] ?_ ?_ (by decide)
  · intro p hp
    rcases List.mem_cons.mp hp with rfl | hp₂
    · decide
    · rcases List.mem_cons.mp hp₂ with rfl | hp₃
      · decide
      · simp at hp₃
  · intro p hp
    rcases List.mem_cons.mp hp with rfl | hp₂
    · exact enc_integer 1 (by decide) (by decide)
    · rcases List.mem_cons.mp hp₂ with rfl | hp₃
      · exact enc_integer 2 (by decide) (by decide)
      · simp at hp₃

theorem read_chars_ok_decomp (n : Nat) (buff l : List Char) (v : BCObject)
    (r : List Char) (h : read_chars n buff l = (.ok v, r)) :
    ∃ content, l = content ++ r ∧ content.length = n ∧
      v = .String (String.mk (buff ++ content)) := by
  induction n generalizing buff l with
  | zero =>
    rw [read_chars] at h
    injection h with h1 h2
    injection h1 with h1
    refine ⟨[], by simp [h2], rfl, by simp [h1.symm]⟩
  | succ m ih =>
    cases l with
    | nil => rw [read_chars] at h; exact absurd h (by simp)
    | cons c rest =>
      obtain ⟨content, hc1, hc2, hc3⟩ := ih (buff ++ [c]) rest h
      refine ⟨c :: content, by simp [hc1], by simp [hc2], ?_⟩
      rw [hc3]
      simp

theorem bne_colon_eq {d : Char} (h : (d != ':') = false) : d = ':' := by
  simpa [bne] using h

theorem bne_e_eq {d : Char} (h : (d != 'e') = false) : d = 'e' := by
  simpa [bne] using h

/-- A succeeding run of the string rule depends only on the part of the
input it consumed: re-running it on the consumed part followed by any other
continuation gives the same value and that continuation. -/
theorem parse_string_extend {l : List Char} {v : BCObject} {r : List Char}
    (h : parse_string l = (.ok v, r)) :
    ∃ c₁, l = c₁ ++ r ∧ ∀ s₂, parse_string (c₁ ++ s₂) = (.ok v, s₂) := by
  have hsplit := List.takeWhile_append_dropWhile (p := fun c => c != ':') (l := l)
  have hmem : ∀ x ∈ l.takeWhile (fun c => c != ':'), (x != ':') = true := by
    intro x hx
    have h₀ := List.mem_takeWhile_imp hx
    exact h₀
  rw [parse_string] at h
  revert h
  try dsimp only
  split
  · intro h
    exact absurd h (by simp)
  · rename_i d rest₀ hdw
    have hfd := dropWhile_head_false hdw
    have hd : d = ':' := bne_colon_eq hfd
    subst hd
    split
    · rename_i i hi
      intro h
      obtain ⟨content, hc1, hc2, hc3⟩ := read_chars_ok_decomp _ _ _ _ _ h
      subst hc3
      refine ⟨l.takeWhile (fun c => c != ':') ++ ':' :: content, ?_, ?_⟩
      · conv_lhs => rw [← hsplit]
        rw [hdw, hc1]
        simp
      · intro s₂
        have hrun := parse_string_spec (l.takeWhile (fun c => c != ':'))
          content s₂ i hmem hi (by rw [hc2])
        rw [List.append_assoc, List.cons_append, hrun]
        simp
    · intro h
      exact absurd h (by simp)

/-- A succeeding run of the integer rule depends only on the part of the
input it consumed. -/
theorem parse_integer_extend {t : List Char} {v : BCObject} {r : List Char}
    (h : parse_integer ('i' :: t) = (.ok v, r)) :
    ∃ c₁, 'i' :: t = c₁ ++ r ∧ ∀ s₂, parse_integer (c₁ ++ s₂) = (.ok v, s₂) := by
  have hsplit := List.takeWhile_append_dropWhile (p := fun c => c != 'e') (l := t)
  have hmem : ∀ x ∈ t.takeWhile (fun c => c != 'e'), (x != 'e') = true := by
    intro x hx
    have h₀ := List.mem_takeWhile_imp hx
    exact h₀
  rw [parse_integer] at h
  revert h
  try dsimp only
  split
  · intro h
    exact absurd h (by simp)
  · rename_i d after hdw
    have hfd := dropWhile_head_false hdw
    have hd : d = 'e' := bne_e_eq hfd
    subst hd
    split
    · intro h
      exact absurd h (by simp)
    · split
      · intro h
        exact absurd h (by simp)
      · rename_i hm hz
        split
        · rename_i n hi
          intro h
          injection h with h1 h2
          injection h1 with h1
          subst h2
          refine ⟨'i' :: t.takeWhile (fun c => c != 'e') ++ ['e'], ?_, ?_⟩
          · conv_lhs => rw [← hsplit]
            rw [hdw]
            simp
          · intro s₂
            have hrun := parse_integer_spec (t.takeWhile (fun c => c != 'e')) s₂ n
              hmem hm hz hi
            rw [show ('i' :: t.takeWhile (fun c => c != 'e') ++ ['e']) ++ s₂ =
                'i' :: (t.takeWhile (fun c => c != 'e') ++ 'e' :: s₂) by simp]
            rw [hrun, h1]
        · intro h
          exact absurd h (by simp)

/-- The unexpected-end error messages of the decoder: the exhausted-input
errors of the four grammar rules (src/bencode/mod.rs lines 85, 127, 160 and
204) and the owed-count error of the counted read loop (line 229). -/
def is_unexpected_end (m : String) : Prop :=
  m = "premature end of integer string" ∨
  m = "premature end of string" ∨
  m = "premature end of list string" ∨
  m = "premature end of dictionary string" ∨
  ∃ k : Nat, m = "premature end of string after len - " ++ toString k ++
    " chars remaining"

/-- When the input holds fewer characters than the counted read loop still
owes, the loop drains it and fails, reporting the count still owed. -/
theorem read_chars_short (n : Nat) (buff l : List Char) (h : l.length < n) :
    read_chars n buff l =
      (.err ("premature end of string after len - " ++ toString (n - l.length) ++
        " chars remaining"), []) := by
  induction l generalizing n buff with
  | nil =>
    cases n with
    | zero => omega
    | succ m =>
      rw [read_chars]
      simp
  | cons c rest ih =>
    cases n with
    | zero => omega
    | succ m =>
      have hlt : rest.length < m := by
        simp only [List.length_cons] at h
        omega
      rw [read_chars, ih m (buff ++ [c]) hlt]
      have harg : m - rest.length = m + 1 - (c :: rest).length := by
        simp only [List.length_cons]
        omega
      rw [harg]

/-- Removing the final character of an input that the integer rule decodes
completely removes the closing `e`, so re-running the rule fails with the
premature-end error. -/
theorem parse_integer_truncate {t : List Char} {v : BCObject}
    (h : parse_integer ('i' :: t) = (.ok v, [])) :
    (parse_integer (('i' :: t).dropLast)).1 = .err "premature end of integer string" := by
  have hsplit := List.takeWhile_append_dropWhile (p := fun c => c != 'e') (l := t)
  have hmem : ∀ x ∈ t.takeWhile (fun c => c != 'e'), (x != 'e') = true := by
    intro x hx
    have h₀ := List.mem_takeWhile_imp hx
    exact h₀
  rw [parse_integer] at h
  revert h
  try dsimp only
  split
  · intro h
    exact absurd h (by simp)
  · rename_i d after hdw
    have hfd := dropWhile_head_false hdw
    have hd : d = 'e' := bne_e_eq hfd
    subst hd
    split
    · intro h
      exact absurd h (by simp)
    · split
      · intro h
        exact absurd h (by simp)
      · split
        · rename_i n hi
          intro h
          injection h with h1 h2
          subst h2
          have ht : t = t.takeWhile (fun c => c != 'e') ++ ['e'] := by
            conv_lhs => rw [← hsplit]
            rw [hdw]
          have hdl : ('i' :: t).dropLast = 'i' :: t.takeWhile (fun c => c != 'e') := by
            rw [show ('i' :: t) = ['i'] ++ t from rfl,
              List.dropLast_append_of_ne_nil _ (by rw [ht]; simp)]
            conv_lhs => rw [ht]
            rw [List.dropLast_concat]
            rfl
          rw [hdl, parse_integer]
          rw [List.dropWhile_eq_nil_iff.mpr hmem]
        · intro h
          exact absurd h (by simp)

/-- Removing the final character of an input that the string rule decodes
completely removes either the colon (for a zero-length read) or the last
owed character, so re-running the rule fails with an unexpected-end
error. -/
theorem parse_string_truncate {l : List Char} {v : BCObject}
    (h : parse_string l = (.ok v, [])) :
    ∃ m, (parse_string l.dropLast).1 = .err m ∧ is_unexpected_end m := by
  have hsplit := List.takeWhile_append_dropWhile (p := fun c => c != ':') (l := l)
  have hmem : ∀ x ∈ l.takeWhile (fun c => c != ':'), (x != ':') = true := by
    intro x hx
    have h₀ := List.mem_takeWhile_imp hx
    exact h₀
  rw [parse_string] at h
  revert h
  try dsimp only
  split
  · intro h
    exact absurd h (by simp)
  · rename_i d rest₀ hdw
    have hfd := dropWhile_head_false hdw
    have hd : d = ':' := bne_colon_eq hfd
    subst hd
    split
    · rename_i i hi
      intro h
      obtain ⟨content, hc1, hc2, hc3⟩ := read_chars_ok_decomp _ _ _ _ _ h
      rw [List.append_nil] at hc1
      subst hc1
      have hldec : l = l.takeWhile (fun c => c != ':') ++ ':' :: rest₀ := by
        conv_lhs => rw [← hsplit]
        rw [hdw]
      cases hcon : rest₀ with
      | nil =>
        have hdl : l.dropLast = l.takeWhile (fun c => c != ':') := by
          conv_lhs => rw [hldec, hcon]
          exact List.dropLast_concat
        refine ⟨"premature end of string", ?_, by simp [is_unexpected_end]⟩
        rw [hdl, parse_string]
        rw [List.dropWhile_eq_nil_iff.mpr hmem]
      | cons a cs =>
        have hcne : rest₀ ≠ [] := by rw [hcon]; simp
        have hdl : l.dropLast =
            l.takeWhile (fun c => c != ':') ++ ':' :: rest₀.dropLast := by
          conv_lhs => rw [hldec]
          rw [List.dropLast_append_of_ne_nil _ (by simp),
            show (':' :: rest₀) = [':'] ++ rest₀ from rfl,
            List.dropLast_append_of_ne_nil _ hcne]
          rfl
        have hshort : rest₀.dropLast.length < i.toNat := by
          rw [List.length_dropLast, ← hc2]
          rw [hcon]
          simp
        have hone : i.toNat - rest₀.dropLast.length = 1 := by
          rw [List.length_dropLast, ← hc2]
          rw [hcon]
          simp
        refine ⟨"premature end of string after len - " ++ toString 1 ++
          " chars remaining", ?_, Or.inr (Or.inr (Or.inr (Or.inr ⟨1, rfl⟩)))⟩
        rw [hdl, parse_string]
        rw [takeWhile_middle hmem (by decide) rest₀.dropLast,
          dropWhile_middle hmem (by decide) rest₀.dropLast]
        dsimp only
        rw [hi]
        dsimp only
        rw [read_chars_short _ _ _ hshort, hone]
    · intro h
      exact absurd h (by simp)

/-- A consuming run keeps the head of its input inside the consumed part. -/
theorem consumed_head {c : Char} {t c₁ r : List Char}
    (h : c :: t = c₁ ++ r) (hlt : r.length < (c :: t).length) :
    ∃ c₁t, c₁ = c :: c₁t := by
  cases c₁ with
  | nil =>
    rw [List.nil_append] at h
    rw [← h] at hlt
    exact absurd hlt (lt_irrefl _)
  | cons d c₁t =>
    rw [List.cons_append] at h
    injection h with h1 h2
    exact ⟨c₁t, by rw [h1]⟩

/-- Locality of the decoder: a succeeding run of the dispatcher, or of a
container loop, depends only on the part of the input it consumed, so
re-running it on that part followed by any other continuation succeeds with
the same value and leaves exactly that continuation. -/
theorem parse_extend_all : ∀ n : Nat, ∀ l : List Char, l.length ≤ n →
    (∀ v, (parse l).res = .ok v →
      ∃ c₁, l = c₁ ++ (parse l).rest ∧
        ∀ s₂, (parse (c₁ ++ s₂)).res = .ok v ∧ (parse (c₁ ++ s₂)).rest = s₂) ∧
    (∀ acc x, (parse_list_loop l acc).res = .ok x →
      ∃ c₁, l = c₁ ++ (parse_list_loop l acc).rest ∧
        ∀ s₂, (parse_list_loop (c₁ ++ s₂) acc).res = .ok x ∧
          (parse_list_loop (c₁ ++ s₂) acc).rest = s₂) ∧
    (∀ m x, (parse_dictionary_loop l m).res = .ok x →
      ∃ c₁, l = c₁ ++ (parse_dictionary_loop l m).rest ∧
        ∀ s₂, (parse_dictionary_loop (c₁ ++ s₂) m).res = .ok x ∧
          (parse_dictionary_loop (c₁ ++ s₂) m).rest = s₂) := by
  intro n
  induction n with
  | zero =>
    intro l hl
    have hnil : l = [] := List.length_eq_zero.mp (Nat.le_zero.mp hl)
    subst hnil
    refine ⟨?_, ?_, ?_⟩
    · intro v hv
      rw [parse] at hv
      exact absurd hv (by simp)
    · intro acc x hv
      rw [(list_loop_nil acc).1] at hv
      exact absurd hv (by simp)
    · intro m x hv
      rw [(dict_loop_nil m).1] at hv
      exact absurd hv (by simp)
  | succ n ih =>
    intro l hl
    have hparse : ∀ l₂ : List Char, l₂.length ≤ n + 1 →
        ∀ v, (parse l₂).res = .ok v →
          ∃ c₁, l₂ = c₁ ++ (parse l₂).rest ∧
            ∀ s₂, (parse (c₁ ++ s₂)).res = .ok v ∧ (parse (c₁ ++ s₂)).rest = s₂ := by
      intro l₂ hl₂ v hv
      cases l₂ with
      | nil =>
        rw [parse] at hv
        exact absurd hv (by simp)
      | cons c t =>
        have ht : t.length ≤ n := by
          simp only [List.length_cons] at hl₂
          omega
        have hlt := (parse (c :: t)).hok v hv
        by_cases hi : c = 'i'
        · subst hi
          rw [(parse_head_i t).1] at hv
          have hpair : parse_integer ('i' :: t) = (.ok v, (parse_integer ('i' :: t)).2) :=
            Prod.ext hv rfl
          obtain ⟨c₁, hc₁, hrun⟩ := parse_integer_extend hpair
          have hrest : (parse ('i' :: t)).rest = (parse_integer ('i' :: t)).2 :=
            (parse_head_i t).2
          have hlt₂ : (parse_integer ('i' :: t)).2.length < ('i' :: t).length := by
            rw [← hrest]
            exact hlt
          obtain ⟨c₁t, rfl⟩ := consumed_head hc₁ hlt₂
          refine ⟨'i' :: c₁t, ?_, ?_⟩
          · rw [hrest]
            exact hc₁
          · intro s₂
            have hr := hrun s₂
            rw [List.cons_append] at hr
            constructor
            · rw [show ('i' :: c₁t) ++ s₂ = 'i' :: (c₁t ++ s₂) from rfl,
                (parse_head_i (c₁t ++ s₂)).1, hr]
            · rw [show ('i' :: c₁t) ++ s₂ = 'i' :: (c₁t ++ s₂) from rfl,
                (parse_head_i (c₁t ++ s₂)).2, hr]
        · by_cases hdd : c = 'd'
          · subst hdd
            rw [(parse_head_d t).1] at hv
            obtain ⟨c₁, hc₁, hrun⟩ := (ih t ht).2.2 [] v hv
            refine ⟨'d' :: c₁, ?_, ?_⟩
            · rw [(parse_head_d t).2, List.cons_append, ← hc₁]
            · intro s₂
              constructor
              · rw [show ('d' :: c₁) ++ s₂ = 'd' :: (c₁ ++ s₂) from rfl,
                  (parse_head_d (c₁ ++ s₂)).1]
                exact (hrun s₂).1
              · rw [show ('d' :: c₁) ++ s₂ = 'd' :: (c₁ ++ s₂) from rfl,
                  (parse_head_d (c₁ ++ s₂)).2]
                exact (hrun s₂).2
          · by_cases hll : c = 'l'
            · subst hll
              rw [(parse_head_l t).1] at hv
              obtain ⟨c₁, hc₁, hrun⟩ := (ih t ht).2.1 [] v hv
              refine ⟨'l' :: c₁, ?_, ?_⟩
              · rw [(parse_head_l t).2, List.cons_append, ← hc₁]
              · intro s₂
                constructor
                · rw [show ('l' :: c₁) ++ s₂ = 'l' :: (c₁ ++ s₂) from rfl,
                    (parse_head_l (c₁ ++ s₂)).1]
                  exact (hrun s₂).1
                · rw [show ('l' :: c₁) ++ s₂ = 'l' :: (c₁ ++ s₂) from rfl,
                    (parse_head_l (c₁ ++ s₂)).2]
                  exact (hrun s₂).2
            · by_cases hdig : '0' ≤ c ∧ c ≤ '9'
              · have hd1 : (parse (c :: t)).res = (parse_string (c :: t)).1 := by
                  rw [parse]
                  rw [if_neg hi, if_neg hdd, if_neg hll, if_pos hdig]
                have hd2 : (parse (c :: t)).rest = (parse_string (c :: t)).2 := by
                  rw [parse]
                  rw [if_neg hi, if_neg hdd, if_neg hll, if_pos hdig]
                rw [hd1] at hv
                have hpair : parse_string (c :: t) = (.ok v, (parse_string (c :: t)).2) :=
                  Prod.ext hv rfl
                obtain ⟨c₁, hc₁, hrun⟩ := parse_string_extend hpair
                have hlt₂ : (parse_string (c :: t)).2.length < (c :: t).length := by
                  rw [← hd2]
                  exact hlt
                obtain ⟨c₁t, rfl⟩ := consumed_head hc₁ hlt₂
                refine ⟨c :: c₁t, ?_, ?_⟩
                · rw [hd2]
                  exact hc₁
                · intro s₂
                  have hr := hrun s₂
                  rw [List.cons_append] at hr
                  have he1 : (parse ((c :: c₁t) ++ s₂)).res =
                      (parse_string (c :: (c₁t ++ s₂))).1 := by
                    rw [show (c :: c₁t) ++ s₂ = c :: (c₁t ++ s₂) from rfl]
                    rw [parse]
                    rw [if_neg hi, if_neg hdd, if_neg hll, if_pos hdig]
                  have he2 : (parse ((c :: c₁t) ++ s₂)).rest =
                      (parse_string (c :: (c₁t ++ s₂))).2 := by
                    rw [show (c :: c₁t) ++ s₂ = c :: (c₁t ++ s₂) from rfl]
                    rw [parse]
                    rw [if_neg hi, if_neg hdd, if_neg hll, if_pos hdig]
                  rw [he1, he2, hr]
                  exact ⟨rfl, rfl⟩
              · have hd : (parse (c :: t)).res = .err ("not implemented: " ++ toString c) := by
                  rw [parse]
                  rw [if_neg hi, if_neg hdd, if_neg hll, if_neg hdig]
                rw [hd] at hv
                exact absurd hv (by simp)
    refine ⟨hparse l hl, ?_, ?_⟩
    · intro acc x hv
      cases l with
      | nil =>
        rw [(list_loop_nil acc).1] at hv
        exact absurd hv (by simp)
      | cons c t =>
        by_cases hce : c = 'e'
        · subst hce
          rw [(list_loop_e t acc).1] at hv
          refine ⟨['e'], ?_, ?_⟩
          · rw [(list_loop_e t acc).2]
            rfl
          · intro s₂
            rw [show ['e'] ++ s₂ = 'e' :: s₂ from rfl]
            injection hv with hv
            rw [← hv]
            exact ⟨(list_loop_e s₂ acc).1, (list_loop_e s₂ acc).2⟩
        · cases hres : (parse (c :: t)).res with
          | ok y =>
            have hstep := list_loop_cons_ok hce acc hres rfl
            rw [hstep.1] at hv
            have hplt := (parse (c :: t)).hok y hres
            have hrle : (parse (c :: t)).rest.length ≤ n := by
              simp only [List.length_cons] at hl hplt
              omega
            obtain ⟨c₂, hc₂, hrun₂⟩ := (ih _ hrle).2.1 (acc ++ [y]) x hv
            obtain ⟨c₁, hc₁, hrun₁⟩ := hparse (c :: t) hl y hres
            obtain ⟨c₁t, rfl⟩ := consumed_head hc₁ hplt
            refine ⟨(c :: c₁t) ++ c₂, ?_, ?_⟩
            · rw [hstep.2, List.append_assoc, ← hc₂]
              exact hc₁
            · intro s₂
              have heq : ((c :: c₁t) ++ c₂) ++ s₂ = c :: (c₁t ++ c₂ ++ s₂) := by simp
              rw [heq]
              have hr1 := hrun₁ (c₂ ++ s₂)
              rw [show (c :: c₁t) ++ (c₂ ++ s₂) = c :: (c₁t ++ c₂ ++ s₂) by simp] at hr1
              have hstep₂ := list_loop_cons_ok hce acc hr1.1 hr1.2
              rw [hstep₂.1, hstep₂.2]
              exact hrun₂ s₂
          | err e =>
            rw [list_loop_cons_err hce acc hres] at hv
            exact absurd hv (by simp)
          | panic =>
            rw [list_loop_cons_panic hce acc hres] at hv
            exact absurd hv (by simp)
    · intro m x hv
      cases l with
      | nil =>
        rw [(dict_loop_nil m).1] at hv
        exact absurd hv (by simp)
      | cons c t =>
        by_cases hce : c = 'e'
        · subst hce
          rw [(dict_loop_e t m).1] at hv
          refine ⟨['e'], ?_, ?_⟩
          · rw [(dict_loop_e t m).2]
            rfl
          · intro s₂
            rw [show ['e'] ++ s₂ = 'e' :: s₂ from rfl]
            injection hv with hv
            rw [← hv]
            exact ⟨(dict_loop_e s₂ m).1, (dict_loop_e s₂ m).2⟩
        · rcases hkp : parse_string (c :: t) with ⟨kres, krest⟩
          cases kres with
          | ok kv =>
            obtain ⟨s, rfl⟩ := parse_string_only_strings _ _ _ hkp
            have hkle : krest.length ≤ (c :: t).length := by
              have h₁ := parse_string_le (c :: t)
              rw [hkp] at h₁
              exact h₁
            have hklt : krest.length < (c :: t).length := by
              have h₁ := parse_string_lt (c :: t) (.String s) (congrArg Prod.fst hkp)
              have h₂ := congrArg Prod.snd hkp
              rw [h₂] at h₁
              exact h₁
            cases hvres : (parse krest).res with
            | ok y =>
              have hstep := dict_loop_cons_ok hce m hkp hvres rfl
              rw [hstep.1] at hv
              have hvlt := (parse krest).hok y hvres
              have hvle : (parse krest).rest.length ≤ n := by
                simp only [List.length_cons] at hl hklt
                omega
              obtain ⟨c₃, hc₃, hrun₃⟩ := (ih _ hvle).2.2 (btree_insert m s y) x hv
              have hkrle : krest.length ≤ n + 1 := le_trans hkle hl
              obtain ⟨c₂, hc₂, hrun₂⟩ := hparse krest hkrle y hvres
              obtain ⟨ck, hck, hrunk⟩ := parse_string_extend hkp
              obtain ⟨ckt, rfl⟩ := consumed_head hck hklt
              refine ⟨(c :: ckt) ++ (c₂ ++ c₃), ?_, ?_⟩
              · rw [hstep.2, List.append_assoc, List.append_assoc, ← hc₃, ← hc₂]
                exact hck
              · intro s₂
                have heq : ((c :: ckt) ++ (c₂ ++ c₃)) ++ s₂ =
                    c :: (ckt ++ (c₂ ++ (c₃ ++ s₂))) := by simp
                rw [heq]
                have hrk := hrunk (c₂ ++ (c₃ ++ s₂))
                rw [show (c :: ckt) ++ (c₂ ++ (c₃ ++ s₂)) =
                    c :: (ckt ++ (c₂ ++ (c₃ ++ s₂))) from rfl] at hrk
                have hrv := hrun₂ (c₃ ++ s₂)
                have hstep₂ := dict_loop_cons_ok hce m hrk hrv.1 hrv.2
                rw [hstep₂.1, hstep₂.2]
                exact hrun₃ s₂
            | err e =>
              rw [(dict_loop_cons_valerr hce m hkp hvres).1] at hv
              exact absurd hv (by simp)
            | panic =>
              rw [dict_loop_cons_valpanic hce m hkp hvres] at hv
              exact absurd hv (by simp)
          | err e =>
            rw [(dict_loop_cons_keyerr hce m hkp).1] at hv
            exact absurd hv (by simp)
          | panic =>
            exact absurd (congrArg Prod.fst hkp) (parse_string_not_panic (c :: t))

/-- Truncation of a complete decode: when the dispatcher, or a container
loop, succeeds and consumes its whole input, removing the final character
of that input makes the same run fail with an unexpected-end error. -/
theorem parse_truncation_all : ∀ n : Nat, ∀ l : List Char, l.length ≤ n →
    (∀ v, (parse l).res = .ok v → (parse l).rest = [] →
      ∃ m, (parse l.dropLast).res = .err m ∧ is_unexpected_end m) ∧
    (∀ acc x, (parse_list_loop l acc).res = .ok x →
      (parse_list_loop l acc).rest = [] →
      ∃ m, (parse_list_loop l.dropLast acc).res = .err m ∧ is_unexpected_end m) ∧
    (∀ mm x, (parse_dictionary_loop l mm).res = .ok x →
      (parse_dictionary_loop l mm).rest = [] →
      ∃ m, (parse_dictionary_loop l.dropLast mm).res = .err m ∧ is_unexpected_end m) := by
  intro n
  induction n with
  | zero =>
    intro l hl
    have hnil : l = [] := List.length_eq_zero.mp (Nat.le_zero.mp hl)
    subst hnil
    refine ⟨?_, ?_, ?_⟩
    · intro v hv _
      rw [parse] at hv
      exact absurd hv (by simp)
    · intro acc x hv _
      rw [(list_loop_nil acc).1] at hv
      exact absurd hv (by simp)
    · intro mm x hv _
      rw [(dict_loop_nil mm).1] at hv
      exact absurd hv (by simp)
  | succ n ih =>
    intro l hl
    have hparse : ∀ l₂ : List Char, l₂.length ≤ n + 1 →
        ∀ v, (parse l₂).res = .ok v → (parse l₂).rest = [] →
          ∃ m, (parse l₂.dropLast).res = .err m ∧ is_unexpected_end m := by
      intro l₂ hl₂ v hv hr
      cases l₂ with
      | nil =>
        rw [parse] at hv
        exact absurd hv (by simp)
      | cons c t =>
        have ht : t.length ≤ n := by
          simp only [List.length_cons] at hl₂
          omega
        by_cases hi : c = 'i'
        · subst hi
          rw [(parse_head_i t).1] at hv
          rw [(parse_head_i t).2] at hr
          have hpair : parse_integer ('i' :: t) = (.ok v, []) := by
            rw [← hr]
            exact Prod.ext hv rfl
          cases t with
          | nil =>
            rw [parse_integer] at hpair
            exact absurd hpair (by simp)
          | cons a t₀ =>
            have htr := parse_integer_truncate hpair
            refine ⟨"premature end of integer string", ?_, Or.inl rfl⟩
            rw [show (('i' :: a :: t₀).dropLast) = 'i' :: (a :: t₀).dropLast from rfl] at htr ⊢
            rw [(parse_head_i (a :: t₀).dropLast).1]
            exact htr
        · by_cases hdd : c = 'd'
          · subst hdd
            rw [(parse_head_d t).1] at hv
            rw [(parse_head_d t).2] at hr
            have htne : t ≠ [] := by
              intro hte
              subst hte
              rw [(dict_loop_nil []).1] at hv
              exact absurd hv (by simp)
            obtain ⟨m, hm, hue⟩ := (ih t ht).2.2 [] v hv hr
            refine ⟨m, ?_, hue⟩
            have hdl : ('d' :: t).dropLast = 'd' :: t.dropLast := by
              rw [show ('d' :: t) = ['d'] ++ t from rfl,
                List.dropLast_append_of_ne_nil _ htne]
              rfl
            rw [hdl, (parse_head_d t.dropLast).1]
            exact hm
          · by_cases hll : c = 'l'
            · subst hll
              rw [(parse_head_l t).1] at hv
              rw [(parse_head_l t).2] at hr
              have htne : t ≠ [] := by
                intro hte
                subst hte
                rw [(list_loop_nil []).1] at hv
                exact absurd hv (by simp)
              obtain ⟨m, hm, hue⟩ := (ih t ht).2.1 [] v hv hr
              refine ⟨m, ?_, hue⟩
              have hdl : ('l' :: t).dropLast = 'l' :: t.dropLast := by
                rw [show ('l' :: t) = ['l'] ++ t from rfl,
                  List.dropLast_append_of_ne_nil _ htne]
                rfl
              rw [hdl, (parse_head_l t.dropLast).1]
              exact hm
            · by_cases hdig : '0' ≤ c ∧ c ≤ '9'
              · have hd1 : (parse (c :: t)).res = (parse_string (c :: t)).1 := by
                  rw [parse]
                  rw [if_neg hi, if_neg hdd, if_neg hll, if_pos hdig]
                have hd2 : (parse (c :: t)).rest = (parse_string (c :: t)).2 := by
                  rw [parse]
                  rw [if_neg hi, if_neg hdd, if_neg hll, if_pos hdig]
                rw [hd1] at hv
                rw [hd2] at hr
                have hpair : parse_string (c :: t) = (.ok v, []) := by
                  rw [← hr]
                  exact Prod.ext hv rfl
                have hcc : (c != ':') = true := by
                  refine bne_iff_ne.mpr ?_
                  intro hc'
                  subst hc'
                  exact absurd hdig (by decide)
                have htne : t ≠ [] := by
                  intro hte
                  subst hte
                  rw [parse_string] at hpair
                  rw [show List.dropWhile (fun x => x != ':') [c] = [] from by
                    simp [List.dropWhile_cons, hcc]] at hpair
                  exact absurd hpair (by simp)
                obtain ⟨m, hm, hue⟩ := parse_string_truncate hpair
                refine ⟨m, ?_, hue⟩
                have hdl : (c :: t).dropLast = c :: t.dropLast := by
                  rw [show (c :: t) = [c] ++ t from rfl,
                    List.dropLast_append_of_ne_nil _ htne]
                  rfl
                rw [hdl] at hm ⊢
                rw [parse]
                rw [if_neg hi, if_neg hdd, if_neg hll, if_pos hdig]
                exact hm
              · have hd : (parse (c :: t)).res =
                    .err ("not implemented: " ++ toString c) := by
                  rw [parse]
                  rw [if_neg hi, if_neg hdd, if_neg hll, if_neg hdig]
                rw [hd] at hv
                exact absurd hv (by simp)
    refine ⟨hparse l hl, ?_, ?_⟩
    · intro acc x hv hr
      cases l with
      | nil =>
        rw [(list_loop_nil acc).1] at hv
        exact absurd hv (by simp)
      | cons c t =>
        by_cases hce : c = 'e'
        · subst hce
          rw [(list_loop_e t acc).2] at hr
          subst hr
          refine ⟨"premature end of list string", ?_, Or.inr (Or.inr (Or.inl rfl))⟩
          rw [show (('e' :: ([] : List Char)).dropLast) = ([] : List Char) from rfl]
          exact (list_loop_nil acc).1
        · cases hres : (parse (c :: t)).res with
          | ok y =>
            have hstep := list_loop_cons_ok hce acc hres rfl
            rw [hstep.1] at hv
            rw [hstep.2] at hr
            have hplt := (parse (c :: t)).hok y hres
            have hrle : (parse (c :: t)).rest.length ≤ n := by
              simp only [List.length_cons] at hl hplt
              omega
            have hrne : (parse (c :: t)).rest ≠ [] := by
              intro he
              rw [he, (list_loop_nil (acc ++ [y])).1] at hv
              exact absurd hv (by simp)
            obtain ⟨m, hm, hue⟩ := (ih _ hrle).2.1 (acc ++ [y]) x hv hr
            obtain ⟨c₁, hc₁, hrun₁⟩ :=
              (parse_extend_all (c :: t).length (c :: t) (le_refl _)).1 y hres
            obtain ⟨c₁t, rfl⟩ := consumed_head hc₁ hplt
            refine ⟨m, ?_, hue⟩
            have hdl : (c :: t).dropLast =
                c :: (c₁t ++ (parse (c :: t)).rest.dropLast) := by
              conv_lhs => rw [hc₁]
              rw [List.dropLast_append_of_ne_nil _ hrne]
              rfl
            rw [hdl]
            have hre := hrun₁ ((parse (c :: t)).rest.dropLast)
            rw [show (c :: c₁t) ++ (parse (c :: t)).rest.dropLast =
                c :: (c₁t ++ (parse (c :: t)).rest.dropLast) from rfl] at hre
            have hstep₂ := list_loop_cons_ok hce acc hre.1 hre.2
            rw [hstep₂.1]
            exact hm
          | err e =>
            rw [list_loop_cons_err hce acc hres] at hv
            exact absurd hv (by simp)
          | panic =>
            rw [list_loop_cons_panic hce acc hres] at hv
            exact absurd hv (by simp)
    · intro mm x hv hr
      cases l with
      | nil =>
        rw [(dict_loop_nil mm).1] at hv
        exact absurd hv (by simp)
      | cons c t =>
        by_cases hce : c = 'e'
        · subst hce
          rw [(dict_loop_e t mm).2] at hr
          subst hr
          refine ⟨"premature end of dictionary string", ?_,
            Or.inr (Or.inr (Or.inr (Or.inl rfl)))⟩
          rw [show (('e' :: ([] : List Char)).dropLast) = ([] : List Char) from rfl]
          exact (dict_loop_nil mm).1
        · rcases hkp : parse_string (c :: t) with ⟨kres, krest⟩
          cases kres with
          | ok kv =>
            obtain ⟨s, rfl⟩ := parse_string_only_strings _ _ _ hkp
            have hkle : krest.length ≤ (c :: t).length := by
              have h₁ := parse_string_le (c :: t)
              rw [hkp] at h₁
              exact h₁
            have hklt : krest.length < (c :: t).length := by
              have h₁ := parse_string_lt (c :: t) (.String s) (congrArg Prod.fst hkp)
              have h₂ := congrArg Prod.snd hkp
              rw [h₂] at h₁
              exact h₁
            cases hvres : (parse krest).res with
            | ok y =>
              have hstep := dict_loop_cons_ok hce mm hkp hvres rfl
              rw [hstep.1] at hv
              rw [hstep.2] at hr
              have hvlt := (parse krest).hok y hvres
              have hvle : (parse krest).rest.length ≤ n := by
                simp only [List.length_cons] at hl hklt
                omega
              have hvne : (parse krest).rest ≠ [] := by
                intro he
                rw [he, (dict_loop_nil (btree_insert mm s y)).1] at hv
                exact absurd hv (by simp)
              obtain ⟨m, hm, hue⟩ := (ih _ hvle).2.2 (btree_insert mm s y) x hv hr
              obtain ⟨ck, hck, hrunk⟩ := parse_string_extend hkp
              obtain ⟨ckt, rfl⟩ := consumed_head hck hklt
              obtain ⟨c₂, hc₂, hrun₂⟩ :=
                (parse_extend_all krest.length krest (le_refl _)).1 y hvres
              have hkne : krest ≠ [] := by
                intro h
                have hlen := congrArg List.length hc₂
                rw [List.length_append] at hlen
                have h0 : krest.length = 0 := by rw [h]; rfl
                have hpos : 0 < (parse krest).rest.length := List.length_pos.mpr hvne
                omega
              refine ⟨m, ?_, hue⟩
              have hdl : (c :: t).dropLast =
                  c :: (ckt ++ (c₂ ++ (parse krest).rest.dropLast)) := by
                conv_lhs => rw [hck]
                rw [List.dropLast_append_of_ne_nil _ hkne]
                conv_lhs => rw [hc₂]
                rw [List.dropLast_append_of_ne_nil _ hvne]
                rfl
              rw [hdl]
              have hrk := hrunk (c₂ ++ (parse krest).rest.dropLast)
              rw [show (c :: ckt) ++ (c₂ ++ (parse krest).rest.dropLast) =
                  c :: (ckt ++ (c₂ ++ (parse krest).rest.dropLast)) from rfl] at hrk
              have hrv := hrun₂ ((parse krest).rest.dropLast)
              have hstep₂ := dict_loop_cons_ok hce mm hrk hrv.1 hrv.2
              rw [hstep₂.1]
              exact hm
            | err e =>
              rw [(dict_loop_cons_valerr hce mm hkp hvres).1] at hv
              exact absurd hv (by simp)
            | panic =>
              rw [dict_loop_cons_valpanic hce mm hkp hvres] at hv
              exact absurd hv (by simp)
          | err e =>
            rw [(dict_loop_cons_keyerr hce mm hkp).1] at hv
            exact absurd hv (by simp)
          | panic =>
            exact absurd (congrArg Prod.fst hkp) (parse_string_not_panic (c :: t))

/-- The command enum of src/lib.rs lines 19-25; the two `i32` payloads of
`Add` are modelled as `Int` (their values play no role in the claims). -/
inductive Command where
  | Test
  | HealthCheck
  | Echo : String → Command
  | Add : Int → Int → Command

/-- Embedding of `impl PartialEq for Command` (src/lib.rs lines 27-35): the
match arms cover `Test`/`Test`, `HealthCheck`/`HealthCheck` and
`Echo`/`Echo`; every other pair, including two `Add` values, falls through
to the final arm and yields `false`. -/
def command_eq (a b : Command) : Bool :=
  match a, b with
  | .Test, .Test => true
  | .HealthCheck, .HealthCheck => true
  | .Echo x, .Echo y => x == y
  | _, _ => false

/-- Embedding of `Command::name` (src/lib.rs lines 72-79). -/
def Command.name : Command → String
  | .Test => "test"
  | .HealthCheck => "health_check"
  | .Echo _ => "echo"
  | .Add _ _ => "add"

/-- Embedding of `Command::serialize_args` (src/lib.rs lines 81-87). -/
def Command.serialize_args : Command → Option String
  | .Echo s => some ("\"echoed\": \"" ++ s ++ "\"")
  | .Add a b => some ("\"a\": " ++ toString a ++ ", \"b\": " ++ toString b)
  | _ => none

/-- Embedding of `Command::serialize` (src/lib.rs lines 89-97): an opening
brace, the quoted `command` field holding `name()`, the optional argument
fields, a closing brace and a newline. -/
def Command.serialize (c : Command) : String :=
  let res := "\x7b\"command\": \"" ++ c.name ++ "\""
  let res :=
    match c.serialize_args with
    | some args => res ++ ", " ++ args
    | none => res
  res ++ "\x7d\n"

/-- JSON value as far as the command module uses it: the external `json`
crate values restricted to strings and integer numbers, the only shapes
`Command::serialize` emits. -/
inductive JValue where
  | str : String → JValue
  | num : Int → JValue

/-- Whitespace skipping of the JSON reader (modelled from the external
`json` crate, which is not part of this repository). -/
def json_ws (l : List Char) : List Char :=
  l.dropWhile (fun c => c = ' ' || c = '\n' || c = '\t' || c = '\r')

/-- Quoted string literal of the JSON reader, without escape handling
(no input in the claims contains an escape). -/
def json_string_lit (l : List Char) : Option (String × List Char) :=
  match l with
  | '"' :: rest =>
    match rest.dropWhile (fun c => c != '"') with
    | '"' :: r => some (String.mk (rest.takeWhile (fun c => c != '"')), r)
    | _ => none
  | _ => none

/-- Integer literal of the JSON reader. -/
def json_number (l : List Char) : Option (Int × List Char) :=
  match l with
  | '-' :: rest =>
    let ds := rest.takeWhile (fun c => c.isDigit)
    if ds = [] then none
    else some (-(digits_val ds : Int), rest.dropWhile (fun c => c.isDigit))
  | _ =>
    let ds := l.takeWhile (fun c => c.isDigit)
    if ds = [] then none
    else some ((digits_val ds : Int), l.dropWhile (fun c => c.isDigit))

/-- Scalar value of the JSON reader: a string or an integer. -/
def json_value (l : List Char) : Option (JValue × List Char) :=
  match json_string_lit l with
  | some (s, r) => some (.str s, r)
  | none =>
    match json_number l with
    | some (n, r) => some (.num n, r)
    | none => none

/-- Member list of a JSON object: `"key": value` pairs separated by commas
and closed by a brace.  The fuel argument only bounds the recursion; the
top-level reader supplies more fuel than the input length, so it never runs
out on the inputs of the claims. -/
def json_members (fuel : Nat) (l : List Char) (acc : List (String × JValue)) :
    Option (List (String × JValue) × List Char) :=
  match fuel with
  | 0 => none
  | fuel + 1 =>
    match json_string_lit (json_ws l) with
    | none => none
    | some (k, r₁) =>
      match json_ws r₁ with
      | ':' :: r₂ =>
        match json_value (json_ws r₂) with
        | none => none
        | some (v, r₃) =>
          match json_ws r₃ with
          | ',' :: r₄ => json_members fuel r₄ (acc ++ [(k, v)])
          | '\x7d' :: r₅ => some (acc ++ [(k, v)], r₅)
          | _ => none
      | _ => none

/-- Modelled from the external `json` crate: `json::parse` on the flat
one-line objects that `Command::serialize` emits (an object of string or
integer members, no nesting, no escapes).  The parsed object is returned as
an association list of members; any malformed input is a parse error (only
the success and failure of the parse matter to the claims, not the error
text). -/
def json_parse (s : String) : Except String (List (String × JValue)) :=
  match json_ws s.data with
  | '\x7b' :: r =>
    match json_ws r with
    | '\x7d' :: r₂ =>
      if json_ws r₂ = [] then .ok [] else .error "Unexpected character"
    | r₁ =>
      match json_members (r₁.length + 1) r₁ [] with
      | some (m, rest) =>
        if json_ws rest = [] then .ok m else .error "Unexpected character"
      | none => .error "Unexpected character"
  | _ => .error "Unexpected character"

/-- Member lookup, modelling indexing a parsed `json` object by key. -/
def json_get (m : List (String × JValue)) (k : String) : Option JValue :=
  match m with
  | [] => none
  | (k₁, v) :: rest => if k₁ == k then some v else json_get rest k

/-- Modelled from the external `json` crate: `as_str` yields the string
payload of a string value and `None` otherwise. -/
def jval_as_str : Option JValue → Option String
  | some (.str s) => some s
  | _ => none

/-- Modelled from the external `json` crate: `as_i32` yields the numeric
payload when it fits in an `i32` and `None` otherwise. -/
def jval_as_i32 : Option JValue → Option Int
  | some (.num n) => if -2147483648 ≤ n ∧ n ≤ 2147483647 then some n else none
  | _ => none

/-- Embedding of `Command::deserialize` (src/lib.rs lines 99-128): parse the
blob as JSON, require a `command` member holding a string, and dispatch on
that string; note that the arm for the health-check variant matches
`health`, not `health_check`. -/
def Command.deserialize (blob : String) : Except String Command :=
  match json_parse blob with
  | .error e => .error e
  | .ok m =>
    match jval_as_str (json_get m "command") with
    | some s =>
      match s with
      | "test" => .ok .Test
      | "health" => .ok .HealthCheck
      | "echo" =>
        match jval_as_str (json_get m "echoed") with
        | some a => .ok (.Echo a)
        | none => .error "bad echo - no key `echoed`"
      | "add" =>
        match jval_as_i32 (json_get m "a"), jval_as_i32 (json_get m "b") with
        | some a, some b => .ok (.Add a b)
        | none, none => .error "missing arguments `a` and `b`"
        | none, _ => .error "missing argument `a`"
        | _, none => .error "missing argument `b`"
      | _ => .error "bad command"
    | none => .error "no command"

example : parse_blob "i623e" = .ok (.Integer 623) := by
  simp [parse_blob, parse, parse_integer, parse_i64, parse_i64_digits, digits_val,
    i64_min, i64_max]

example : parse_blob "11:hello world" = .ok (.String "hello world") := by
  simp [parse_blob, parse, parse_string, parse_i64, parse_i64_digits, digits_val,
    i64_min, i64_max, read_chars]

/-- Claim C1: the decoder is not total.  On the empty input, `parse_blob`
reaches `iter.peek().unwrap()` on an exhausted iterator and panics instead
of returning the unexpected-end error the specification promises; a
malformed list item (here the unrecognized tag `x` inside `lxe`) likewise
panics through the `unwrap` in the list loop instead of propagating the
typed error. -/
theorem c1_parse_blob_panics_on_empty_input :
    parse_blob "" = .panic ∧ parse_blob "lxe" = .panic := by
  constructor
  · show (parse ([] : List Char)).res = _
    simp [parse]
  · show (parse ['l', 'x', 'e']).res = _
    simp [parse, parse_list, parse_list_loop]

/-- Claim C9: equality on `Command` is not reflexive.  For every pair of
integers `a` and `b`, comparing `Command::Add(a, b)` with an identical
`Command::Add(a, b)` yields `false`, because the `PartialEq` implementation
has no arm matching two `Add` values and falls through to the catch-all. -/
theorem c9_command_add_eq_not_reflexive (a b : Int) :
    command_eq (.Add a b) (.Add a b) = false := rfl

/-- Claim C10: the command round trip fails for the health-check variant.
`serialize` renders the command name as `health_check`, but `deserialize`
only recognizes `health`, so deserializing the serialized form is the
`bad command` error while the name `health` deserializes fine. -/
theorem c10_healthcheck_roundtrip_fails :
    Command.serialize .HealthCheck = "\x7b\"command\": \"health_check\"\x7d\n" ∧
    Command.deserialize (Command.serialize .HealthCheck) = .error "bad command" ∧
    Command.deserialize "\x7b\"command\": \"health\"\x7d" = .ok .HealthCheck :=
  ⟨rfl, rfl, rfl⟩

/-- Claim C6: removing the final character of any input that the decoder
decodes completely (success with the whole input consumed, which covers
every well-formed encoding of an integer, string, list or dictionary)
makes the decode fail with one of the unexpected-end errors; it never
yields a value. -/
theorem c6_truncation_yields_unexpected_end (l : List Char) (v : BCObject)
    (hok : (parse l).res = .ok v) (hall : (parse l).rest = []) :
    ∃ m, (parse l.dropLast).res = .err m ∧ is_unexpected_end m :=
  (parse_truncation_all l.length l (le_refl _)).1 v hok hall

/-- Witness for C6 at the well-formed integer encoding `i5e`, whose
truncation `i5` fails with a premature-end error. -/
theorem c6_witness :
    ∃ m, (parse (['i', '5', 'e'].dropLast)).res = .err m ∧ is_unexpected_end m :=
  c6_truncation_yields_unexpected_end ['i', '5', 'e'] (.Integer 5)
    (by simp [parse, parse_integer, parse_i64, parse_i64_digits, digits_val,
      i64_min, i64_max])
    (by simp [parse, parse_integer, parse_i64, parse_i64_digits, digits_val,
      i64_min, i64_max])

end Oxidant
